import Mathlib

/-!
Shallow embedding of the `fingertips` inverted-index builder
(src/index.rs, src/write.rs, src/read.rs, src/merge.rs, src/tmp.rs,
src/main.rs) and proofs about it.

Modelling conventions:
* Machine integers are `Nat`; the Rust casts `as u32` are explicit
  `% 2 ^ 32` at the cast sites, and the little-endian encoders take the
  low bytes, exactly as `byteorder::LittleEndian` does.
* Bytes are `Nat`s below 256; byte buffers are `List Nat`.
* Text is `List Char` (Rust `String` is UTF-8; for valid UTF-8,
  byte-wise lexicographic order of the encoding coincides with
  code-point lexicographic order of the character list, so Rust's
  `String` ordering is the lexicographic order on `List Char`).
* `HashMap<String, Vec<Hit>>` is an association list with distinct
  keys.  Iteration order of the Rust hash map is arbitrary; every
  consumer in the program either sorts (the writer) or is
  order-insensitive, and both execution modes perform the identical
  sequence of map operations, so a deterministic association list is a
  faithful model.
* File-system side effects (paths, unlinking) are modelled by values:
  a produced index file is its contents, and unlink counts are
  returned explicitly where a claim mentions them.
-/

namespace Fingertips

/-- Little-endian u32 encoding (`byteorder::WriteBytesExt::write_u32`):
the four low bytes of the value, least significant first. -/
def le32 (n : Nat) : List Nat :=
  [n % 256, n / 256 % 256, n / 256 ^ 2 % 256, n / 256 ^ 3 % 256]

/-- Little-endian u64 encoding (`write_u64`). -/
def le64 (n : Nat) : List Nat :=
  [n % 256, n / 256 % 256, n / 256 ^ 2 % 256, n / 256 ^ 3 % 256,
   n / 256 ^ 4 % 256, n / 256 ^ 5 % 256, n / 256 ^ 6 % 256, n / 256 ^ 7 % 256]

/-- The Rust cast `as u32`: truncation modulo `2 ^ 32`. -/
def toU32 (n : Nat) : Nat := n % 2 ^ 32

/-- Decode a little-endian byte buffer into the number it denotes
(`read_u32` / `read_u64` after `take`-ing the field's bytes). -/
def decodeLE : List Nat → Nat
  | [] => 0
  | b :: bs => b + 256 * decodeLE bs

/-- A term is the character list of the Rust `String`. -/
abbrev Term := List Char

/-- `tokenize` helper: `str::split` with a `!ch.is_alphanumeric()`
separator predicate yields the (possibly empty) chunks between
separator characters.  Rust's `char::is_alphanumeric` is Unicode-aware;
`Char.isAlphanum` agrees with it on ASCII, which is the classifier's
role in every claim proved here. -/
def splitNonAlnum : List Char → List Char → List (List Char)
  | [], cur => [cur.reverse]
  | c :: cs, cur =>
    if c.isAlphanum then splitNonAlnum cs (c :: cur)
    else cur.reverse :: splitNonAlnum cs []

/-- `tokenize` (src/index.rs): split on runs of non-alphanumeric
characters and discard the empty chunks. -/
def tokenize (text : List Char) : List Term :=
  (splitNonAlnum text []).filter (fun w => w ≠ [])

/-- Rust `str::to_lowercase`, modelled character-wise (`Char.toLower`;
agrees with Rust on ASCII). -/
def lowercase (text : List Char) : List Char := text.map Char.toLower

/-- A `Hit` (src/index.rs): one posting, a little-endian byte buffer.
The first u32 is the document id, the rest are in-document positions. -/
abbrev Hit := List Nat

/-- `InMemoryIndex` (src/index.rs): word count plus term-to-postings
map, the latter as an association list. -/
structure InMemoryIndex where
  wordCount : Nat
  map : List (Term × List Hit)
deriving DecidableEq

/-- `InMemoryIndex::new`. -/
def InMemoryIndex.new : InMemoryIndex := ⟨0, []⟩

/-- One step of `from_single_document`'s loop body: look up `tok`;
if absent insert a fresh singleton hit list `[le32 docId]`
(`or_insert_with`), then append `le32 i` to `hits[0]`.  `docId` is
already truncated by the caller. -/
def addToken (docId : Nat) (m : List (Term × List Hit)) (tok : Term) (i : Nat) :
    List (Term × List Hit) :=
  match m with
  | [] => [(tok, [le32 docId ++ le32 (toU32 i)])]
  | (t, hs) :: rest =>
    if t = tok then
      (t, (match hs with
           | [] => []
           | h :: tl => (h ++ le32 (toU32 i)) :: tl)) :: rest
    else (t, hs) :: addToken docId rest tok i

/-- `InMemoryIndex::from_single_document` (src/index.rs): lowercase,
tokenize, then for each `(i, token)` of the enumerated token list add
position `i` to the token's single hit, counting words as it goes.
`document_id as u32` is `toU32`. -/
def InMemoryIndex.fromSingleDocument (documentId : Nat) (text : List Char) :
    InMemoryIndex :=
  let docId := toU32 documentId
  let tokens := tokenize (lowercase text)
  tokens.enum.foldl
    (fun idx p => { wordCount := idx.wordCount + 1,
                    map := addToken docId idx.map p.2 p.1 })
    InMemoryIndex.new

/-- `self.map.entry(term).or_insert_with(|| vec![]).extend(hits)`. -/
def extendAt (m : List (Term × List Hit)) (tok : Term) (hs : List Hit) :
    List (Term × List Hit) :=
  match m with
  | [] => [(tok, hs)]
  | (t, ts) :: rest =>
    if t = tok then (t, ts ++ hs) :: rest
    else (t, ts) :: extendAt rest tok hs

/-- `InMemoryIndex::merge` (src/index.rs): extend this index's hit list
for every term of `other`; word counts add. -/
def InMemoryIndex.merge (self other : InMemoryIndex) : InMemoryIndex :=
  { wordCount := self.wordCount + other.wordCount,
    map := other.map.foldl (fun m p => extendAt m p.1 p.2) self.map }

/-- `InMemoryIndex::is_empty`. -/
def InMemoryIndex.isEmpty (self : InMemoryIndex) : Bool := self.wordCount = 0

/-- `InMemoryIndex::is_large`: word count exceeds 100,000,000. -/
def InMemoryIndex.isLarge (self : InMemoryIndex) : Bool :=
  self.wordCount > 100000000

/-- The 0-based ordinals at which `tok` occurs in the token list
(specification vocabulary for the claims about postings). -/
def occurrences (tok : Term) (tokens : List Term) : List Nat :=
  (tokens.enum.filter (fun p => p.2 = tok)).map (fun p => p.1)

/-- Association-list lookup, the model of `HashMap::get` /
`HashMap::entry` hit-or-miss. -/
def lookupTerm (t : Term) : List (Term × List Hit) → Option (List Hit)
  | [] => none
  | (u, hs) :: rest => if u = t then some hs else lookupTerm t rest

/-- The posting the spec promises for `tok`: the truncated document id
followed by the truncated position of every occurrence, in text
order. -/
def postingOf (documentId : Nat) (tok : Term) (tokens : List Term) : Hit :=
  le32 (toU32 documentId) ++
    (occurrences tok tokens).flatMap (fun i => le32 (toU32 i))

/-- `from_single_document`'s map-building fold, over an arbitrary
enumerated pair list. -/
def buildMap (docId : Nat) (m : List (Term × List Hit))
    (ps : List (Nat × Term)) : List (Term × List Hit) :=
  ps.foldl (fun m p => addToken docId m p.2 p.1) m

/-- The byte string of the truncated positions of `t`-occurrences in an
enumerated pair list. -/
def posBytes (t : Term) (ps : List (Nat × Term)) : List Nat :=
  ((ps.filter (fun p => p.2 = t)).map (fun p => p.1)).flatMap
    (fun i => le32 (toU32 i))

/-- A table-of-contents entry (`Entry`, src/read.rs; also the tuple
passed to `write_contents_entry`, src/write.rs). -/
structure Entry where
  term : Term
  df : Nat
  offset : Nat
  nbytes : Nat
deriving DecidableEq

/-- An index file's contents: the Main region (the bytes after the
8-byte header) and the Contents (TOC) region, kept structured.  The
u64 written into the header by `IndexFileWriter::finish` is
`contents_start`, which always equals 8 plus the length of Main. -/
structure IndexFile where
  main : List Nat
  toc : List Entry
deriving DecidableEq

/-- The u64 stored in the 8-byte header: `contents_start = self.offset`
at `finish` time, i.e. 8 header bytes plus everything written to
Main. -/
def IndexFile.header (f : IndexFile) : Nat := 8 + f.main.length

/-- UTF-8 encoding of one character (Rust `str::bytes`). -/
def utf8EncodeChar (c : Char) : List Nat :=
  let n := c.toNat
  if n < 128 then [n]
  else if n < 2048 then [192 + n / 64, 128 + n % 64]
  else if n < 65536 then [224 + n / 4096, 128 + n / 64 % 64, 128 + n % 64]
  else [240 + n / 262144, 128 + n / 4096 % 64, 128 + n / 64 % 64,
        128 + n % 64]

/-- UTF-8 encoding of a term. -/
def utf8Encode (t : Term) : List Nat := t.flatMap utf8EncodeChar

/-- `IndexFileWriter::write_contents_entry`: u64 offset, u64 nbytes,
u32 df, u32 term byte length, then the term's UTF-8 bytes. -/
def encodeEntry (e : Entry) : List Nat :=
  le64 e.offset ++ le64 e.nbytes ++ le32 e.df ++
    le32 (utf8Encode e.term).length ++ utf8Encode e.term

/-- The full byte string of an index file as laid out by
`IndexFileWriter`: header u64, Main, then the Contents buffer. -/
def IndexFile.bytes (f : IndexFile) : List Nat :=
  le64 f.header ++ f.main ++ (f.toc.map encodeEntry).flatten

/-- The comparison `a.cmp(b)` used by `write_index_to_tmp_file`'s
`sort_by` on `(String, Vec<Hit>)` pairs: byte order of the terms. -/
def termPairLe (a b : Term × List Hit) : Prop := a.1 ≤ b.1

instance : DecidableRel termPairLe :=
  fun a b => inferInstanceAs (Decidable (a.1 ≤ b.1))

instance : IsTotal (Term × List Hit) termPairLe :=
  ⟨fun a b => le_total a.1 b.1⟩

instance : IsTrans (Term × List Hit) termPairLe :=
  ⟨fun _ _ _ h1 h2 => le_trans h1 h2⟩

/-- The `index_as_vec.sort_by(...)` call of `write_index_to_tmp_file`:
a stable sort of the map's entries by ascending term. -/
def sortByTerm (entries : List (Term × List Hit)) : List (Term × List Hit) :=
  List.insertionSort termPairLe entries

/-- The per-term loop of `write_index_to_tmp_file` (src/write.rs):
`start := writer.offset`; write every posting of the term; emit the
Contents entry `(term, df = hits.len(), offset = start,
nbytes = stop - start)`.  `offset` is threaded explicitly
(`IndexFileWriter.offset` is 8 plus the bytes written so far). -/
def writeLoop (offset : Nat) : List (Term × List Hit) → List Nat × List Entry
  | [] => ([], [])
  | (t, hs) :: rest =>
    let bytes := hs.flatten
    let stop := offset + bytes.length
    match writeLoop stop rest with
    | (main, toc) =>
      (bytes ++ main, ⟨t, hs.length, offset, stop - offset⟩ :: toc)

/-- `write_index_to_tmp_file` (src/write.rs): sort the in-memory map by
term, write each term's postings back-to-back recording one Contents
entry per term, then `finish()`. -/
def writeIndexToTmpFile (index : InMemoryIndex) : IndexFile :=
  match writeLoop 8 (sortByTerm index.map) with
  | (main, toc) => ⟨main, toc⟩

/-- The state of one `IndexFileReader` (src/read.rs) during a merge:
the not-yet-consumed TOC entries, each paired with the `nbytes`-long
slice of Main that `move_entry_to` will copy for it.  (`move_entry_to`
reads Main strictly sequentially, exactly `next.nbytes` bytes per
entry, so the per-entry slices are determined up front.)  The lookahead
`next` is the head; `None` at end of the table is the empty list. -/
abbrev Readers := List (List (Entry × List Nat))

/-- `peek()`: the lookahead entry, if any. -/
def peekEntry (s : List (Entry × List Nat)) : Option Entry :=
  s.head?.map Prod.fst

/-- One step of the scanning `for` loop of `merge_streams`
(src/merge.rs): fold state is `(term, nbytes, df)` — `None` while no
reader with a lookahead has been seen.  A strictly smaller term resets
the sums, an equal term accumulates, a larger term is ignored. -/
def scanStep (acc : Option (Term × Nat × Nat))
    (s : List (Entry × List Nat)) : Option (Term × Nat × Nat) :=
  match peekEntry s with
  | none => acc
  | some e =>
    match acc with
    | none => some (e.term, e.nbytes, e.df)
    | some (t, n, d) =>
      if e.term < t then some (e.term, e.nbytes, e.df)
      else if e.term = t then some (t, n + e.nbytes, d + e.df)
      else some (t, n, d)

/-- The full scan over all readers, in reader-index order. -/
def scanStreams (streams : Readers) : Option (Term × Nat × Nat) :=
  streams.foldl scanStep none

/-- The Main bytes `move_entry_to` copies from one reader if it
`is_at(term)`, else nothing. -/
def takeHead (t : Term) (s : List (Entry × List Nat)) : List Nat :=
  match s with
  | [] => []
  | (e, p) :: _ => if e.term = t then p else []

/-- One reader after the moving `for` loop: its lookahead advanced
exactly when it was at `term`. -/
def dropHead (t : Term) (s : List (Entry × List Nat)) :
    List (Entry × List Nat) :=
  match s with
  | [] => []
  | (e, p) :: rest => if e.term = t then rest else (e, p) :: rest

/-- The moving `for` loop of `merge_streams`: every reader at `term`
copies its entry's Main bytes to the output, in reader-index order,
and advances. -/
def moveAll (t : Term) (streams : Readers) : List Nat × Readers :=
  ((streams.map (takeHead t)).flatten, streams.map (dropHead t))

/-- Total number of pending TOC entries across all readers (the
decreasing measure of the merge loop). -/
def totalEntries (streams : Readers) : Nat :=
  (streams.map List.length).sum

/-- The `while count > 0` loop of `merge_streams`.  `count` is
maintained equal to the number of readers whose lookahead is non-empty
(it is initialized that way and decremented exactly when a moved
reader's `peek()` becomes `None`), so the loop condition is modelled as
`¬ streams.all isEmpty`.  `fuel` bounds the iterations; the `none`
results model the `AlgorithmError` arm (`term.ok_or(...)` failing) and
fuel exhaustion, both proved unreachable below.  `point` is the running
`offset` column of emitted TOC entries, starting at 0. -/
def mergeLoop : Nat → Readers → Nat → Option (List Entry × List Nat)
  | 0, streams, _ =>
    if streams.all List.isEmpty then some ([], []) else none
  | fuel + 1, streams, point =>
    if streams.all List.isEmpty then some ([], [])
    else
      match scanStreams streams with
      | none => none
      | some (t, nbytes, df) =>
        match moveAll t streams with
        | (bytes, streams1) =>
          match mergeLoop fuel streams1 (point + nbytes) with
          | none => none
          | some (toc, main) =>
            some (⟨t, df, point, nbytes⟩ :: toc, bytes ++ main)

/-- `merge_streams(files, out)` (src/merge.rs), from the opened
readers to the finished output file. -/
def mergeStreams (streams : Readers) : Option IndexFile :=
  match mergeLoop (totalEntries streams) streams 0 with
  | none => none
  | some (toc, main) => some ⟨main, toc⟩

/-- `constants::NSTREAMS` (src/merge.rs). -/
def NSTREAMS : Nat := 8

/-- Slice a file's Main region into the per-entry chunks its reader
will deliver (`open_and_delete` positions `main` at byte 8 and
`move_entry_to` consumes `nbytes` bytes per entry, sequentially). -/
def fileToStream : List Entry → List Nat → List (Entry × List Nat)
  | [], _ => []
  | e :: es, main => (e, main.take e.nbytes) :: fileToStream es (main.drop e.nbytes)

/-- The reader stream of a file. -/
def IndexFile.toStream (f : IndexFile) : List (Entry × List Nat) :=
  fileToStream f.toc f.main

/-- `merge_streams` over whole files, totalized with a default for the
unreachable error branches (fuel exhaustion / `AlgorithmError` never
happen, as proved below; the stack bookkeeping of `FileMerge` does not
depend on merged file contents). -/
def mergeFiles (files : List IndexFile) : IndexFile :=
  (mergeStreams (files.map IndexFile.toStream)).getD ⟨[], []⟩

/-- `FileMerge::add_file` (src/merge.rs) acting on `stacks` from
`level` upward: push the file; if the level now holds NSTREAMS files,
take them all, k-way merge them into a fresh temporary file, and carry
that file to the next level.  Also returns how many input files the
triggered merges unlinked (`IndexFileReader::open_and_delete` unlinks
every input of every `merge_streams` call). -/
def addAt : List (List IndexFile) → IndexFile → List (List IndexFile) × Nat
  | [], file => ([[file]], 0)
  | stack :: rest, file =>
    let stack1 := stack ++ [file]
    if stack1.length < NSTREAMS then (stack1 :: rest, 0)
    else
      match addAt rest (mergeFiles stack1) with
      | (rest1, u) => ([] :: rest1, stack1.length + u)

/-- `FileMerge::add_file`, stacks only. -/
def addFile (sts : List (List IndexFile)) (file : IndexFile) :
    List (List IndexFile) :=
  (addAt sts file).1

/-- A whole sequence of `add_file` calls on a fresh `FileMerge`,
returning the final stacks and the total number of unlinked files. -/
def addAll (files : List IndexFile) : List (List IndexFile) × Nat :=
  files.foldl
    (fun st f =>
      match addAt st.1 f with
      | (s, u) => (s, st.2 + u))
    ([], 0)

/-- The inner body of `FileMerge::finish`'s drain: push one file into
`tmp`; when `tmp` reaches NSTREAMS, `merge_reversed` reverses it back
and merges it into a single file which becomes the sole content of
`tmp`. -/
def drainStep (tmp : List IndexFile) (file : IndexFile) : List IndexFile :=
  let tmp1 := tmp ++ [file]
  if tmp1.length = NSTREAMS then [mergeFiles tmp1.reverse] else tmp1

/-- `FileMerge::finish`'s drain loops: levels bottom-up, each level's
files in reverse order. -/
def finishLoop (sts : List (List IndexFile)) : List IndexFile :=
  sts.foldl (fun tmp stack => stack.reverse.foldl drainStep tmp) []

/-- `FileMerge::finish` (src/merge.rs): drain, one final merge if more
than one file remains, then pop the sole survivor (renamed to
`index.dat`); `none` is the empty-corpus error (and no `index.dat` is
created). -/
def finishMerge (sts : List (List IndexFile)) : Option IndexFile :=
  let tmp := finishLoop sts
  let tmp1 := if tmp.length > 1 then [mergeFiles tmp.reverse] else tmp
  tmp1.getLast?

/-- One document step of `run_single_threaded` (src/main.rs): build the
one-document index, merge it into the accumulator, and flush to a
temporary file handed to `FileMerge` when the accumulator is large. -/
def stStep (st : InMemoryIndex × List (List IndexFile)) (p : Nat × List Char) :
    InMemoryIndex × List (List IndexFile) :=
  let index := InMemoryIndex.fromSingleDocument p.1 p.2
  let acc := st.1.merge index
  if acc.isLarge then (InMemoryIndex.new, addFile st.2 (writeIndexToTmpFile acc))
  else (acc, st.2)

/-- `run_single_threaded` (src/main.rs), from document texts to the
final `index.dat` contents (`none` = empty-corpus error). -/
def runSingleThreaded (texts : List (List Char)) : Option IndexFile :=
  let st := texts.enum.foldl stStep (InMemoryIndex.new, [])
  let sts :=
    if st.1.isEmpty then st.2 else addFile st.2 (writeIndexToTmpFile st.1)
  finishMerge sts

/-- Stage 2, `start_file_indexing_thread`: assign document ids 0, 1, 2,
… in arrival order and build one-document indexes. -/
def indexerStage (texts : List (List Char)) : List InMemoryIndex :=
  texts.enum.map (fun p => InMemoryIndex.fromSingleDocument p.1 p.2)

/-- One step of stage 3, `start_in_memory_merge_thread`: merge into the
accumulator; send it and start fresh when it is large. -/
def mergeStep (st : List InMemoryIndex × InMemoryIndex) (fi : InMemoryIndex) :
    List InMemoryIndex × InMemoryIndex :=
  let acc := st.2.merge fi
  if acc.isLarge then (st.1 ++ [acc], InMemoryIndex.new) else (st.1, acc)

/-- Stage 3 in full: fold, then flush a non-empty residue. -/
def mergerStage (indexes : List InMemoryIndex) : List InMemoryIndex :=
  let st := indexes.foldl mergeStep ([], InMemoryIndex.new)
  if st.2.isEmpty then st.1 else st.1 ++ [st.2]

/-- Stage 4, `start_index_writer_thread`: serialize each large index. -/
def writerStage (bigs : List InMemoryIndex) : List IndexFile :=
  bigs.map writeIndexToTmpFile

/-- Stage 5, `merge_index_files`: feed every filename to `FileMerge`
in arrival order, then `finish`. -/
def mergeIndexFiles (files : List IndexFile) : Option IndexFile :=
  finishMerge (files.foldl addFile [])

/-- `run_pipeline` (src/main.rs).  The five stages hand values over
single-producer/single-consumer FIFO queues, so the pipelined run
computes exactly the composition of the stage functions. -/
def runPipeline (texts : List (List Char)) : Option IndexFile :=
  mergeIndexFiles (writerStage (mergerStage (indexerStage texts)))

/-- `byteorder`'s `read_u64`/`read_u32` on a buffered reader: consume
`k` bytes little-endian, or fail with `UnexpectedEof` when fewer than
`k` bytes remain. -/
def readLE (k : Nat) (bs : List Nat) : Option (Nat × List Nat) :=
  if bs.length < k then none else some (decodeLE (bs.take k), bs.drop k)

/-- A UTF-8 continuation byte (0x80-0xBF). -/
def isCont (b : Nat) : Bool := 128 ≤ b && b ≤ 191

/-- `String::from_utf8`: strict UTF-8 decoding.  Rejects lone
continuation bytes, overlong forms (leads 0xC0/0xC1, 0xE0 with second
byte below 0xA0, 0xF0 with second byte below 0x90), surrogates (0xED
with second byte above 0x9F), and code points above U+10FFFF (leads
above 0xF4, 0xF4 with second byte above 0x8F). -/
def utf8Decode : List Nat → Option (List Char)
  | [] => some []
  | b0 :: rest =>
    if b0 < 128 then
      (utf8Decode rest).map (fun cs => Char.ofNat b0 :: cs)
    else if b0 < 194 then none
    else if b0 ≤ 223 then
      match rest with
      | b1 :: rest1 =>
        if isCont b1 then
          (utf8Decode rest1).map
            (fun cs => Char.ofNat ((b0 - 192) * 64 + (b1 - 128)) :: cs)
        else none
      | [] => none
    else if b0 ≤ 239 then
      match rest with
      | b1 :: b2 :: rest2 =>
        if (if b0 = 224 then decide (160 ≤ b1) && decide (b1 ≤ 191)
            else if b0 = 237 then decide (128 ≤ b1) && decide (b1 ≤ 159)
            else isCont b1) && isCont b2 then
          (utf8Decode rest2).map
            (fun cs => Char.ofNat
              ((b0 - 224) * 4096 + (b1 - 128) * 64 + (b2 - 128)) :: cs)
        else none
      | _ => none
    else if b0 ≤ 244 then
      match rest with
      | b1 :: b2 :: b3 :: rest3 =>
        if (if b0 = 240 then decide (144 ≤ b1) && decide (b1 ≤ 191)
            else if b0 = 244 then decide (128 ≤ b1) && decide (b1 ≤ 143)
            else isCont b1) && isCont b2 && isCont b3 then
          (utf8Decode rest3).map
            (fun cs => Char.ofNat
              ((b0 - 240) * 262144 + (b1 - 128) * 4096 +
                (b2 - 128) * 64 + (b3 - 128)) :: cs)
        else none
      | _ => none
    else none

/-- The four possible outcomes of `IndexFileReader::read_entry`
(src/read.rs): clean end of the table (`Ok(None)`), a short read on a
field after the first (`Err(UnexpectedEof)` propagated), the
"unicode fail" error, or one parsed entry plus the remaining bytes. -/
inductive ReadEntryResult where
  | endOfContents
  | errShortRead
  | errUnicode
  | entry (e : Entry) (rest : List Nat)
deriving DecidableEq

/-- `IndexFileReader::read_entry` over the remaining Contents bytes:
`offset` u64 (an `UnexpectedEof` here is clean end-of-stream), then
`nbytes` u64, `df` u32, `term_len` u32, and `term_len` term bytes that
must decode as UTF-8. -/
def readEntry (bs : List Nat) : ReadEntryResult :=
  match readLE 8 bs with
  | none => .endOfContents
  | some (offset, bs1) =>
    match readLE 8 bs1 with
    | none => .errShortRead
    | some (nbytes, bs2) =>
      match readLE 4 bs2 with
      | none => .errShortRead
      | some (df, bs3) =>
        match readLE 4 bs3 with
        | none => .errShortRead
        | some (termLen, bs4) =>
          if bs4.length < termLen then .errShortRead
          else
            match utf8Decode (bs4.take termLen) with
            | none => .errUnicode
            | some term => .entry ⟨term, df, offset, nbytes⟩ (bs4.drop termLen)

/-- Outcome of one `OpenOptions::create_new` attempt (src/tmp.rs). -/
inductive FsOutcome where
  | ok
  | alreadyExists
  | otherError
deriving DecidableEq

/-- Result of `TmpDir::create`: the filename and advanced counter, or
the propagated error kind and advanced counter. -/
inductive CreateResult where
  | created (filename : List Char) (n1 : Nat)
  | failed (err : FsOutcome) (n1 : Nat)
deriving DecidableEq

/-- One lowercase hexadecimal digit. -/
def hexDigit (n : Nat) : Char :=
  if n < 10 then Char.ofNat (48 + n) else Char.ofNat (87 + n)

/-- The eight zero-padded lowercase hex digits of `{:08x}` (exact for
counter values below `2 ^ 32`; larger values would print more digits
but the counter starts at 1 and increments once per attempt). -/
def hex8 (n : Nat) : List Char :=
  [hexDigit (n / 16 ^ 7 % 16), hexDigit (n / 16 ^ 6 % 16),
   hexDigit (n / 16 ^ 5 % 16), hexDigit (n / 16 ^ 4 % 16),
   hexDigit (n / 16 ^ 3 % 16), hexDigit (n / 16 ^ 2 % 16),
   hexDigit (n / 16 % 16), hexDigit (n % 16)]

/-- `format!("tmp{:08x}.dat", self.n)`. -/
def tmpName (n : Nat) : List Char := "tmp".data ++ hex8 n ++ ".dat".data

/-- The loop of `TmpDir::create` (src/tmp.rs), driven by an oracle
giving each attempt's file-system outcome for counter value `n`.
`budget` is `999 - r#try`: the loop keeps retrying on `AlreadyExists`
while `r#try < 999`, i.e. while `budget > 0`, and any other error is
returned immediately.  `self.n` increments on every attempt.  (The
`ok` and `otherError` arms ignore `r#try`, so they are spelled out in
both budget cases.) -/
def createLoop (oracle : Nat → FsOutcome) : Nat → Nat → CreateResult
  | n, 0 =>
    match oracle n with
    | .ok => .created (tmpName n) (n + 1)
    | .alreadyExists => .failed .alreadyExists (n + 1)
    | .otherError => .failed .otherError (n + 1)
  | n, b + 1 =>
    match oracle n with
    | .ok => .created (tmpName n) (n + 1)
    | .alreadyExists => createLoop oracle (n + 1) b
    | .otherError => .failed .otherError (n + 1)

/-- `TmpDir::create`: `r#try` starts at 1, so 998 retries remain. -/
def tmpCreate (oracle : Nat → FsOutcome) (n : Nat) : CreateResult :=
  createLoop oracle n 998

/-- The sequence of counter values the loop attempts. -/
def createAttempts (oracle : Nat → FsOutcome) : Nat → Nat → List Nat
  | n, 0 => [n]
  | n, b + 1 =>
    match oracle n with
    | .alreadyExists => n :: createAttempts oracle (n + 1) b
    | _ => [n]

/-- Invariant C's chain condition on a TOC: the first entry starts at
`start` and each entry's `offset + nbytes` is the next entry's
`offset`. -/
def contiguousFrom : Nat → List Entry → Bool
  | _, [] => true
  | start, e :: es => decide (e.offset = start) && contiguousFrom (e.offset + e.nbytes) es

/-- Total `nbytes` of a TOC. -/
def sumNbytes (toc : List Entry) : Nat := (toc.map Entry.nbytes).sum

/-- The terms of a TOC, in order. -/
def tocTerms (toc : List Entry) : List Term := toc.map Entry.term

/-- The terms of one reader's pending entries, in order. -/
def entryTerms (s : List (Entry × List Nat)) : List Term :=
  s.map (fun q => q.1.term)

/-- Every term of every reader (with multiplicity). -/
def allTerms (streams : Readers) : List Term :=
  (streams.map entryTerms).flatten

/-- The lookahead terms of the readers that have one. -/
def headTerms (streams : Readers) : List Term :=
  streams.filterMap (fun s => (peekEntry s).map Entry.term)

/-- Sum over all readers of the `df` of their entries for term `t`. -/
def dfTotal (t : Term) (streams : Readers) : Nat :=
  (streams.map
    (fun s => ((s.filter (fun q => q.1.term = t)).map (fun q => q.1.df)).sum)).sum

/-- Sum over all readers of the `nbytes` of their entries for `t`. -/
def nbytesTotal (t : Term) (streams : Readers) : Nat :=
  (streams.map
    (fun s => ((s.filter (fun q => q.1.term = t)).map (fun q => q.1.nbytes)).sum)).sum

/-- Concatenation, in reader-index order, of the Main bytes every
reader holds for term `t`. -/
def bytesTotal (t : Term) (streams : Readers) : List Nat :=
  (streams.map
    (fun s => ((s.filter (fun q => q.1.term = t)).map (fun q => q.2)).flatten)).flatten

/-- The lookahead entries of the readers that have one, in reader
order. -/
def headEntries (streams : Readers) : List Entry :=
  streams.filterMap peekEntry

/-- What the scanning loop's fold state means after some lookaheads
`es` have been folded in: `none` while none were seen, otherwise the
lexicographically smallest seen term with the sums of `nbytes` and
`df` over the seen lookaheads carrying that term. -/
def AccDescribes (acc : Option (Term × Nat × Nat)) (es : List Entry) : Prop :=
  match acc with
  | none => es = []
  | some (t, n, d) =>
      t ∈ es.map Entry.term ∧ (∀ u ∈ es.map Entry.term, t ≤ u) ∧
      n = ((es.filter (fun e => e.term = t)).map Entry.nbytes).sum ∧
      d = ((es.filter (fun e => e.term = t)).map Entry.df).sum

/-- A reader's pending entries are strictly ascending by term (what
`open_and_delete` delivers for every file the program writes). -/
def AscStream (s : List (Entry × List Nat)) : Prop :=
  List.Pairwise (fun a b => a.1.term < b.1.term) s

instance (s : List (Entry × List Nat)) : Decidable (AscStream s) :=
  inferInstanceAs
    (Decidable (List.Pairwise
      (fun (a b : Entry × List Nat) => a.1.term < b.1.term) s))

/-- Every entry's payload slice has exactly `nbytes` bytes (true of
every well-formed file: the reader reads exactly `nbytes` bytes of
Main per entry). -/
def PayloadLengths (s : List (Entry × List Nat)) : Prop :=
  ∀ q ∈ s, (q.2 : List Nat).length = q.1.nbytes

/-- The spec's Invariant C for one file, as stated: the first TOC
offset is 8, offsets chain by `nbytes`, and the final
`offset + nbytes` (i.e. `8 + sumNbytes`) is the header value. -/
def invariantC (f : IndexFile) : Bool :=
  contiguousFrom 8 f.toc && decide (8 + sumNbytes f.toc = f.header)

/-- Eight small one-term index files, the concrete input of the
cascade-trigger scenario (NSTREAMS files fed to a fresh FileMerge). -/
def files8 : List IndexFile :=
  (List.range 8).map (fun i => ⟨le32 i ++ le32 0, [⟨['a'], 1, 8, 8⟩]⟩)

/-- Total number of files held across all levels of the stacks. -/
def totalFiles (sts : List (List IndexFile)) : Nat :=
  (sts.map List.length).sum

theorem addToken_keys (d : Nat) (m : List (Term × List Hit)) (tok : Term)
    (i : Nat) :
    (addToken d m tok i).map Prod.fst =
      if tok ∈ m.map Prod.fst then m.map Prod.fst
      else m.map Prod.fst ++ [tok] := by
  induction m with
  | nil => simp [addToken]
  | cons e rest ih =>
    obtain ⟨t, hs⟩ := e
    by_cases ht : t = tok
    · subst ht
      simp [addToken]
    · simp only [addToken, if_neg ht, List.map_cons, List.mem_cons, ih]
      by_cases hmem : tok ∈ rest.map Prod.fst
      · simp [hmem, ht, Ne.symm ht]
      · simp [hmem, ht, Ne.symm ht]

theorem addToken_singletons (d : Nat) (m : List (Term × List Hit))
    (tok : Term) (i : Nat)
    (hm : ∀ e ∈ m, ∃ h, e.2 = [h]) :
    ∀ e ∈ addToken d m tok i, ∃ h, e.2 = [h] := by
  induction m with
  | nil =>
    intro e he
    simp only [addToken, List.mem_singleton] at he
    subst he
    exact ⟨_, rfl⟩
  | cons e₀ rest ih =>
    obtain ⟨t, hs⟩ := e₀
    intro e he
    by_cases ht : t = tok
    · subst ht
      simp only [addToken, if_pos rfl] at he
      cases he with
      | head =>
        obtain ⟨h, hh⟩ := hm (t, hs) (by simp)
        simp only at hh
        subst hh
        exact ⟨_, rfl⟩
      | tail _ he => exact hm _ (List.mem_cons_of_mem _ he)
    · simp only [addToken, if_neg ht] at he
      cases he with
      | head => exact hm (t, hs) (by simp)
      | tail _ he => exact ih (fun x hx => hm x (List.mem_cons_of_mem _ hx)) _ he

theorem addToken_lookup_ne (d : Nat) (m : List (Term × List Hit))
    (tok t : Term) (i : Nat) (ht : t ≠ tok) :
    lookupTerm t (addToken d m tok i) = lookupTerm t m := by
  induction m with
  | nil => simp [addToken, lookupTerm, Ne.symm ht]
  | cons e rest ih =>
    obtain ⟨u, hs⟩ := e
    by_cases hu : u = tok
    · subst hu
      simp [addToken, lookupTerm, Ne.symm ht]
    · by_cases hut : u = t
      · subst hut
        simp [addToken, hu, lookupTerm]
      · simp [addToken, hu, lookupTerm, hut, ih]

theorem addToken_lookup_eq (d : Nat) (m : List (Term × List Hit))
    (tok : Term) (i : Nat) :
    lookupTerm tok (addToken d m tok i) =
      match lookupTerm tok m with
      | none => some [le32 d ++ le32 (toU32 i)]
      | some [] => some []
      | some (h :: tl) => some ((h ++ le32 (toU32 i)) :: tl) := by
  induction m with
  | nil => simp [addToken, lookupTerm]
  | cons e rest ih =>
    obtain ⟨u, hs⟩ := e
    by_cases hu : u = tok
    · subst hu
      cases hs with
      | nil => simp [addToken, lookupTerm]
      | cons h tl => simp [addToken, lookupTerm]
    · simp [addToken, hu, lookupTerm, ih]

theorem buildMap_wordCount (d : Nat) (ps : List (Nat × Term))
    (init : InMemoryIndex) :
    (ps.foldl
      (fun idx p => InMemoryIndex.mk (idx.wordCount + 1)
        (addToken d idx.map p.2 p.1)) init) =
      ⟨init.wordCount + ps.length, buildMap d init.map ps⟩ := by
  induction ps generalizing init with
  | nil => simp [buildMap]
  | cons p rest ih =>
    simp only [List.foldl_cons]
    rw [ih]
    simp only [buildMap, List.foldl_cons, List.length_cons,
      InMemoryIndex.mk.injEq]
    exact ⟨by omega, trivial⟩

theorem buildMap_singletons (d : Nat) (ps : List (Nat × Term))
    (m : List (Term × List Hit)) (hm : ∀ e ∈ m, ∃ h, e.2 = [h]) :
    ∀ e ∈ buildMap d m ps, ∃ h, e.2 = [h] := by
  induction ps generalizing m with
  | nil => exact hm
  | cons p rest ih =>
    exact ih _ (addToken_singletons d m p.2 p.1 hm)

theorem buildMap_keys (d : Nat) (ps : List (Nat × Term))
    (m : List (Term × List Hit)) :
    ∀ t, t ∈ (buildMap d m ps).map Prod.fst ↔
      t ∈ m.map Prod.fst ∨ t ∈ ps.map Prod.snd := by
  induction ps generalizing m with
  | nil => simp [buildMap]
  | cons p rest ih =>
    intro t
    simp only [buildMap, List.foldl_cons]
    rw [show (List.foldl (fun m q => addToken d m q.2 q.1)
          (addToken d m p.2 p.1) rest) =
        buildMap d (addToken d m p.2 p.1) rest from rfl]
    rw [ih]
    rw [addToken_keys]
    by_cases hmem : p.2 ∈ m.map Prod.fst
    · simp only [if_pos hmem, List.map_cons, List.mem_cons]
      constructor
      · rintro (h | h)
        · exact Or.inl h
        · exact Or.inr (Or.inr h)
      · rintro (h | h | h)
        · exact Or.inl h
        · exact Or.inl (h ▸ hmem)
        · exact Or.inr h
    · simp only [if_neg hmem, List.mem_append, List.mem_singleton,
        List.map_cons, List.mem_cons]
      tauto

theorem buildMap_nodup_keys (d : Nat) (ps : List (Nat × Term))
    (m : List (Term × List Hit)) (hm : (m.map Prod.fst).Nodup) :
    ((buildMap d m ps).map Prod.fst).Nodup := by
  induction ps generalizing m with
  | nil => exact hm
  | cons p rest ih =>
    refine ih _ ?_
    rw [addToken_keys]
    by_cases hmem : p.2 ∈ m.map Prod.fst
    · simpa [hmem] using hm
    · simp only [if_neg hmem]
      refine List.Nodup.append hm (List.nodup_singleton _) ?_
      intro x hx hx2
      simp only [List.mem_singleton] at hx2
      subst hx2
      exact hmem hx

theorem buildMap_lookup_some (d : Nat) (t : Term) (ps : List (Nat × Term)) :
    ∀ (m : List (Term × List Hit)) (h : Hit), lookupTerm t m = some [h] →
      lookupTerm t (buildMap d m ps) = some [h ++ posBytes t ps] := by
  induction ps with
  | nil =>
    intro m h hl
    simpa [buildMap, posBytes] using hl
  | cons p rest ih =>
    intro m h hl
    by_cases hp : p.2 = t
    · have step : lookupTerm t (addToken d m p.2 p.1) =
          some [h ++ le32 (toU32 p.1)] := by
        rw [hp, addToken_lookup_eq, hl]
      have := ih (addToken d m p.2 p.1) (h ++ le32 (toU32 p.1)) step
      rw [show buildMap d m (p :: rest) =
          buildMap d (addToken d m p.2 p.1) rest from rfl, this]
      simp [posBytes, hp, List.append_assoc]
    · have step : lookupTerm t (addToken d m p.2 p.1) = some [h] := by
        rw [addToken_lookup_ne d m p.2 t p.1 (fun hh => hp hh.symm), hl]
      have := ih (addToken d m p.2 p.1) h step
      rw [show buildMap d m (p :: rest) =
          buildMap d (addToken d m p.2 p.1) rest from rfl, this]
      simp [posBytes, hp]

theorem buildMap_lookup_none (d : Nat) (t : Term) (ps : List (Nat × Term)) :
    ∀ (m : List (Term × List Hit)), lookupTerm t m = none →
      lookupTerm t (buildMap d m ps) =
        if t ∈ ps.map Prod.snd
        then some [le32 d ++ posBytes t ps] else none := by
  induction ps with
  | nil =>
    intro m hl
    simpa [buildMap] using hl
  | cons p rest ih =>
    intro m hl
    rw [show buildMap d m (p :: rest) =
        buildMap d (addToken d m p.2 p.1) rest from rfl]
    by_cases hp : p.2 = t
    · have hstep : lookupTerm t (addToken d m p.2 p.1) =
          some [le32 d ++ le32 (toU32 p.1)] := by
        rw [hp, addToken_lookup_eq, hl]
      rw [buildMap_lookup_some d t rest _ _ hstep]
      simp [posBytes, hp, List.append_assoc]
    · have hstep : lookupTerm t (addToken d m p.2 p.1) = none := by
        rw [addToken_lookup_ne d m p.2 t p.1 (fun hh => hp hh.symm), hl]
      rw [ih _ hstep]
      have hne : t ≠ p.2 := fun hh => hp hh.symm
      by_cases hmem : t ∈ rest.map Prod.snd
      · simp [posBytes, hp, hmem, List.mem_cons]
      · simp [posBytes, hp, hmem, hne, List.mem_cons]

theorem lookupTerm_of_mem_nodup (t : Term) (hs : List Hit)
    (m : List (Term × List Hit))
    (hnd : (m.map Prod.fst).Nodup) (hmem : (t, hs) ∈ m) :
    lookupTerm t m = some hs := by
  induction m with
  | nil => cases hmem
  | cons e rest ih =>
    obtain ⟨u, us⟩ := e
    rw [List.map_cons, List.nodup_cons] at hnd
    cases hmem with
    | head => simp [lookupTerm]
    | tail _ hmem =>
      have hne : u ≠ t := by
        intro h
        subst h
        exact hnd.1 (List.mem_map.mpr ⟨(u, hs), hmem, rfl⟩)
      simp only [lookupTerm, if_neg hne]
      exact ih hnd.2 hmem

theorem fromSingleDocument_eq (documentId : Nat) (text : List Char) :
    InMemoryIndex.fromSingleDocument documentId text =
      ⟨(tokenize (lowercase text)).length,
       buildMap (toU32 documentId) [] (tokenize (lowercase text)).enum⟩ := by
  simp only [InMemoryIndex.fromSingleDocument]
  rw [show InMemoryIndex.new = ⟨0, []⟩ from rfl]
  rw [buildMap_wordCount (toU32 documentId)
    (tokenize (lowercase text)).enum ⟨0, []⟩]
  simp [List.enum_length]

/-- Claim C3: `from_single_document(doc_id, text)` produces a map with
one key per distinct term of the lowercased, alphanumeric-split text,
exactly one posting (`Hit`) per key, each posting being the
little-endian u32 document id followed by the little-endian u32 0-based
ordinal of every occurrence of the term in text order, and a word count
equal to the total number of emitted tokens, duplicates included. -/
theorem fromSingleDocument_spec (documentId : Nat) (text : List Char) :
    (InMemoryIndex.fromSingleDocument documentId text).wordCount
        = (tokenize (lowercase text)).length ∧
    ((InMemoryIndex.fromSingleDocument documentId text).map.map
        Prod.fst).Nodup ∧
    (∀ t, t ∈ (InMemoryIndex.fromSingleDocument documentId text).map.map
        Prod.fst ↔ t ∈ tokenize (lowercase text)) ∧
    (∀ e ∈ (InMemoryIndex.fromSingleDocument documentId text).map,
        e.2 = [postingOf documentId e.1 (tokenize (lowercase text))]) ∧
    (∀ t ∈ tokenize (lowercase text),
        lookupTerm t (InMemoryIndex.fromSingleDocument documentId text).map
          = some [postingOf documentId t (tokenize (lowercase text))]) := by
  rw [fromSingleDocument_eq]
  have hkeys := buildMap_keys (toU32 documentId)
    (tokenize (lowercase text)).enum []
  have hnodup := buildMap_nodup_keys (toU32 documentId)
    (tokenize (lowercase text)).enum [] (by simp)
  have hlook : ∀ t, t ∈ tokenize (lowercase text) →
      lookupTerm t (buildMap (toU32 documentId) []
        (tokenize (lowercase text)).enum)
        = some [postingOf documentId t (tokenize (lowercase text))] := by
    intro t ht
    rw [buildMap_lookup_none (toU32 documentId) t _ [] rfl]
    rw [List.enum_map_snd]
    rw [if_pos ht]
    rfl
  refine ⟨rfl, hnodup, ?_, ?_, hlook⟩
  · intro t
    rw [hkeys t, List.enum_map_snd]
    simp
  · intro e he
    have h1 : e.1 ∈ tokenize (lowercase text) := by
      have := (hkeys e.1).mp (List.mem_map.mpr ⟨e, he, rfl⟩)
      rw [List.enum_map_snd] at this
      simpa using this
    have h2 := hlook e.1 h1
    have h3 : lookupTerm e.1 (buildMap (toU32 documentId) []
        (tokenize (lowercase text)).enum) = some e.2 :=
      lookupTerm_of_mem_nodup e.1 e.2 _ hnodup he
    rw [h2] at h3
    exact (Option.some_inj.mp h3).symm

theorem fromSingleDocument_spec_witness :
    lookupTerm ['a', 'a']
        (InMemoryIndex.fromSingleDocument 0 "aa bb aa".data).map
      = some [postingOf 0 ['a', 'a']
          (tokenize (lowercase "aa bb aa".data))] :=
  (fromSingleDocument_spec 0 "aa bb aa".data).2.2.2.2
    ['a', 'a'] (by decide)

/-- Claim C10: the stored document id is the `usize` argument truncated
modulo `2 ^ 32` (`as u32`), positions are likewise truncated, and hence
two distinct document ids (0 and `2 ^ 32`) yield identical indexes. -/
theorem fromSingleDocument_truncates (documentId : Nat) (text : List Char) :
    InMemoryIndex.fromSingleDocument documentId text
        = InMemoryIndex.fromSingleDocument (documentId % 2 ^ 32) text ∧
    (∀ i : Nat, le32 (toU32 i) = le32 (i % 2 ^ 32)) ∧
    ((0 : Nat) ≠ 2 ^ 32 ∧
      InMemoryIndex.fromSingleDocument 0 ['a']
        = InMemoryIndex.fromSingleDocument (2 ^ 32) ['a']) := by
  refine ⟨?_, fun i => rfl, by decide, by decide⟩
  rw [fromSingleDocument_eq, fromSingleDocument_eq]
  have h : toU32 (documentId % 2 ^ 32) = toU32 documentId := by
    simp [toU32]
  rw [h]

theorem writeLoop_cons (off : Nat) (t : Term) (hs : List Hit)
    (rest : List (Term × List Hit)) :
    writeLoop off ((t, hs) :: rest) =
      (hs.flatten ++ (writeLoop (off + hs.flatten.length) rest).1,
       ⟨t, hs.length, off, off + hs.flatten.length - off⟩ ::
         (writeLoop (off + hs.flatten.length) rest).2) := by
  simp only [writeLoop]

theorem writeLoop_terms (off : Nat) (l : List (Term × List Hit)) :
    tocTerms (writeLoop off l).2 = l.map Prod.fst := by
  induction l generalizing off with
  | nil => simp [writeLoop, tocTerms]
  | cons p rest ih =>
    obtain ⟨t, hs⟩ := p
    rw [writeLoop_cons]
    simp [tocTerms] at ih ⊢
    exact ih _

theorem writeLoop_contig (off : Nat) (l : List (Term × List Hit)) :
    contiguousFrom off (writeLoop off l).2 = true := by
  induction l generalizing off with
  | nil => simp [writeLoop, contiguousFrom]
  | cons p rest ih =>
    obtain ⟨t, hs⟩ := p
    rw [writeLoop_cons]
    simp only [contiguousFrom, Nat.add_sub_cancel_left]
    simp [ih]

theorem writeLoop_main_length (off : Nat) (l : List (Term × List Hit)) :
    (writeLoop off l).1.length = sumNbytes (writeLoop off l).2 := by
  induction l generalizing off with
  | nil => simp [writeLoop, sumNbytes]
  | cons p rest ih =>
    obtain ⟨t, hs⟩ := p
    rw [writeLoop_cons]
    simp only [sumNbytes, List.map_cons, List.sum_cons,
      Nat.add_sub_cancel_left, List.length_append]
    rw [ih]
    rfl

theorem writeIndex_main_toc (index : InMemoryIndex) :
    (writeIndexToTmpFile index).main
        = (writeLoop 8 (sortByTerm index.map)).1 ∧
    (writeIndexToTmpFile index).toc
        = (writeLoop 8 (sortByTerm index.map)).2 := by
  unfold writeIndexToTmpFile
  rcases h : writeLoop 8 (sortByTerm index.map) with ⟨main, toc⟩
  exact ⟨rfl, rfl⟩

theorem sortByTerm_sorted (l : List (Term × List Hit)) :
    List.Sorted termPairLe (sortByTerm l) :=
  List.sorted_insertionSort termPairLe l

theorem sortByTerm_perm (l : List (Term × List Hit)) :
    (sortByTerm l).Perm l :=
  List.perm_insertionSort termPairLe l

theorem sortByTerm_strict (l : List (Term × List Hit))
    (hnd : (l.map Prod.fst).Nodup) :
    List.Pairwise (fun a b : Term => a < b)
      ((sortByTerm l).map Prod.fst) := by
  have hle : List.Pairwise (fun a b : Term => a ≤ b)
      ((sortByTerm l).map Prod.fst) :=
    List.Pairwise.map Prod.fst (fun a b h => h) (sortByTerm_sorted l)
  have hperm : ((sortByTerm l).map Prod.fst).Perm (l.map Prod.fst) :=
    (sortByTerm_perm l).map Prod.fst
  have hnd2 : ((sortByTerm l).map Prod.fst).Nodup :=
    (hperm.nodup_iff).mpr hnd
  have := hle.and hnd2
  exact this.imp (fun h => lt_of_le_of_ne h.1 h.2)

theorem writeIndex_terms_sorted (index : InMemoryIndex)
    (hnd : (index.map.map Prod.fst).Nodup) :
    List.Pairwise (fun a b : Term => a < b)
      (tocTerms (writeIndexToTmpFile index).toc) := by
  rw [(writeIndex_main_toc index).2, writeLoop_terms]
  exact sortByTerm_strict index.map hnd

theorem writeIndex_contig (index : InMemoryIndex) :
    contiguousFrom 8 (writeIndexToTmpFile index).toc = true ∧
    (writeIndexToTmpFile index).header
        = 8 + sumNbytes (writeIndexToTmpFile index).toc := by
  obtain ⟨hm, ht⟩ := writeIndex_main_toc index
  constructor
  · rw [ht]
    exact writeLoop_contig 8 (sortByTerm index.map)
  · rw [IndexFile.header, hm, ht, writeLoop_main_length]

theorem peekEntry_eq_none (s : List (Entry × List Nat)) :
    peekEntry s = none ↔ s = [] := by
  cases s <;> simp [peekEntry]

theorem scanStep_describes (acc : Option (Term × Nat × Nat))
    (s : List (Entry × List Nat)) (es : List Entry)
    (h : AccDescribes acc es) :
    AccDescribes (scanStep acc s) (es ++ (peekEntry s).toList) := by
  cases hp : peekEntry s with
  | none => simpa [scanStep, hp] using h
  | some e =>
    cases acc with
    | none =>
      simp only [AccDescribes] at h
      subst h
      simp only [scanStep, hp, AccDescribes, List.nil_append, Option.toList]
      refine ⟨by simp, by simp, by simp, by simp⟩
    | some tnd =>
      obtain ⟨t, n, d⟩ := tnd
      obtain ⟨hmem, hmin, hn, hd⟩ := h
      by_cases hlt : e.term < t
      · have hfilter : es.filter (fun x => x.term = e.term) = [] := by
          rw [List.filter_eq_nil_iff]
          intro q hq
          simp only [decide_eq_true_eq]
          intro hq2
          have := hmin q.term (List.mem_map.mpr ⟨q, hq, rfl⟩)
          rw [hq2] at this
          exact absurd hlt (not_lt.mpr this)
        simp only [scanStep, hp, if_pos hlt, AccDescribes, Option.toList]
        refine ⟨by simp, ?_, ?_, ?_⟩
        · intro u hu
          rw [List.map_append, List.mem_append] at hu
          rcases hu with hu | hu
          · exact le_of_lt (lt_of_lt_of_le hlt (hmin u hu))
          · simp only [List.map_cons, List.map_nil, List.mem_singleton] at hu
            exact le_of_eq hu.symm
        · rw [List.filter_append, hfilter]
          simp
        · rw [List.filter_append, hfilter]
          simp
      · by_cases heq : e.term = t
        · simp only [scanStep, hp, if_neg hlt, if_pos heq, AccDescribes,
            Option.toList]
          refine ⟨?_, ?_, ?_, ?_⟩
          · rw [List.map_append, List.mem_append]
            exact Or.inl hmem
          · intro u hu
            rw [List.map_append, List.mem_append] at hu
            rcases hu with hu | hu
            · exact hmin u hu
            · simp only [List.map_cons, List.map_nil, List.mem_singleton] at hu
              rw [hu, ← heq]
          · rw [List.filter_append]
            simp [heq, hn]
          · rw [List.filter_append]
            simp [heq, hd]
        · have htlt : t < e.term :=
            lt_of_le_of_ne (le_of_not_lt hlt) (Ne.symm heq)
          simp only [scanStep, hp, if_neg hlt, if_neg heq, AccDescribes,
            Option.toList]
          refine ⟨?_, ?_, ?_, ?_⟩
          · rw [List.map_append, List.mem_append]
            exact Or.inl hmem
          · intro u hu
            rw [List.map_append, List.mem_append] at hu
            rcases hu with hu | hu
            · exact hmin u hu
            · simp only [List.map_cons, List.map_nil, List.mem_singleton] at hu
              rw [hu]
              exact le_of_lt htlt
          · rw [List.filter_append]
            simp [heq, hn]
          · rw [List.filter_append]
            simp [heq, hd]

theorem scanStreams_describes (streams : Readers) :
    AccDescribes (scanStreams streams) (headEntries streams) := by
  suffices h : ∀ (acc : Option (Term × Nat × Nat)) (es : List Entry),
      AccDescribes acc es →
      AccDescribes (streams.foldl scanStep acc) (es ++ headEntries streams) by
    have := h none [] (by simp [AccDescribes])
    simpa [scanStreams] using this
  induction streams with
  | nil =>
    intro acc es h
    simpa [headEntries] using h
  | cons s ss ih =>
    intro acc es h
    have h2 := ih (scanStep acc s) (es ++ (peekEntry s).toList)
      (scanStep_describes acc s es h)
    rw [List.foldl_cons]
    have hh : headEntries (s :: ss) = (peekEntry s).toList ++ headEntries ss := by
      cases hp : peekEntry s <;>
        simp [headEntries, List.filterMap_cons, hp]
    rw [hh, ← List.append_assoc]
    exact h2

theorem all_isEmpty_iff (streams : Readers) :
    streams.all List.isEmpty = true ↔ headEntries streams = [] := by
  induction streams with
  | nil => simp [headEntries]
  | cons s ss ih =>
    cases s with
    | nil => simp [headEntries, List.filterMap_cons, peekEntry, ih]
    | cons q rest =>
      simp [headEntries, List.filterMap_cons, peekEntry]

theorem allTerms_eq_nil (streams : Readers)
    (h : streams.all List.isEmpty = true) : allTerms streams = [] := by
  induction streams with
  | nil => simp [allTerms]
  | cons s ss ih =>
    simp only [List.all_cons, Bool.and_eq_true] at h
    have hs : s = [] := by
      cases s
      · rfl
      · simp at h
    subst hs
    simp only [allTerms, List.map_cons, List.flatten_cons, entryTerms,
      List.map_nil, List.nil_append]
    exact ih h.2

theorem stream_filter_at_min (s : List (Entry × List Nat)) (t : Term)
    (hasc : AscStream s) (hmin : ∀ u ∈ entryTerms s, t ≤ u) :
    s.filter (fun q => q.1.term = t) =
      match s with
      | [] => []
      | q :: _ => if q.1.term = t then [q] else [] := by
  cases s with
  | nil => simp
  | cons q rest =>
    have hrest : rest.filter (fun x => x.1.term = t) = [] := by
      rw [List.filter_eq_nil_iff]
      intro r hr
      simp only [decide_eq_true_eq]
      intro hrt
      have h1 : q.1.term < r.1.term := (List.pairwise_cons.mp hasc).1 r hr
      have h2 : t ≤ q.1.term := hmin q.1.term (by simp [entryTerms])
      rw [hrt] at h1
      exact absurd (lt_of_le_of_lt h2 h1) (lt_irrefl t)
    by_cases hq : q.1.term = t
    · simp [List.filter_cons, hq, hrest]
    · simp [List.filter_cons, hq, hrest]

theorem head_term_mem (streams : Readers) (s : List (Entry × List Nat))
    (hs : s ∈ streams) (q : Entry × List Nat) (rest : List (Entry × List Nat))
    (hq : s = q :: rest) : q.1.term ∈ headTerms streams := by
  rw [headTerms]
  refine List.mem_filterMap.mpr ⟨s, hs, ?_⟩
  rw [hq]
  simp [peekEntry]

theorem entryTerms_min (streams : Readers) (s : List (Entry × List Nat))
    (hs : s ∈ streams) (t : Term) (hasc : AscStream s)
    (hmin : ∀ u ∈ headTerms streams, t ≤ u) :
    ∀ u ∈ entryTerms s, t ≤ u := by
  cases s with
  | nil => simp [entryTerms]
  | cons q rest =>
    have hq : t ≤ q.1.term :=
      hmin q.1.term (head_term_mem streams _ hs q rest rfl)
    intro u hu
    simp only [entryTerms, List.map_cons, List.mem_cons] at hu
    rcases hu with hu | hu
    · exact hu ▸ hq
    · obtain ⟨r, hr, hru⟩ := List.mem_map.mp hu
      have := (List.pairwise_cons.mp hasc).1 r hr
      rw [hru] at this
      exact le_of_lt (lt_of_le_of_lt hq this)

theorem dropHead_filter_ne (u t : Term) (hu : u ≠ t)
    (s : List (Entry × List Nat)) :
    (dropHead t s).filter (fun q => q.1.term = u)
      = s.filter (fun q => q.1.term = u) := by
  cases s with
  | nil => simp [dropHead]
  | cons q rest =>
    by_cases hq : q.1.term = t
    · simp [dropHead, hq, List.filter_cons, Ne.symm hu]
    · simp [dropHead, hq]

theorem ascStream_dropHead (t : Term) (s : List (Entry × List Nat))
    (hasc : AscStream s) : AscStream (dropHead t s) := by
  cases s with
  | nil => simp [dropHead, AscStream]
  | cons q rest =>
    by_cases hq : q.1.term = t
    · simp only [dropHead, if_pos hq]
      exact (List.pairwise_cons.mp hasc).2
    · simpa [dropHead, hq] using hasc

theorem dropHead_length_le (t : Term) (s : List (Entry × List Nat)) :
    (dropHead t s).length ≤ s.length := by
  cases s with
  | nil => simp [dropHead]
  | cons q rest =>
    by_cases hq : q.1.term = t
    · simp [dropHead, hq]
    · simp [dropHead, hq]

theorem totalEntries_dropHead_le (t : Term) (streams : Readers) :
    totalEntries (streams.map (dropHead t)) ≤ totalEntries streams := by
  induction streams with
  | nil => simp [totalEntries]
  | cons s ss ih =>
    simp only [totalEntries, List.map_cons, List.sum_cons] at ih ⊢
    exact Nat.add_le_add (dropHead_length_le t s) ih

theorem totalEntries_dropHead_lt (t : Term) (streams : Readers)
    (ht : t ∈ headTerms streams) :
    totalEntries (streams.map (dropHead t)) < totalEntries streams := by
  induction streams with
  | nil => simp [headTerms] at ht
  | cons s ss ih =>
    simp only [totalEntries, List.map_cons, List.sum_cons]
    by_cases hhead : ∃ q rest, s = q :: rest ∧ q.1.term = t
    · obtain ⟨q, rest, hqs, hqt⟩ := hhead
      subst hqs
      have h1 : (dropHead t (q :: rest)).length < (q :: rest).length := by
        simp [dropHead, hqt]
      have h2 := totalEntries_dropHead_le t ss
      simp only [totalEntries] at h2
      omega
    · have hts : t ∈ headTerms ss := by
        simp only [headTerms] at ht ⊢
        rcases List.mem_filterMap.mp ht with ⟨s0, hs0, hf⟩
        rcases List.mem_cons.mp hs0 with hs0 | hs0
        · exfalso
          subst hs0
          cases s0 with
          | nil => simp [peekEntry] at hf
          | cons q rest =>
            refine hhead ⟨q, rest, rfl, ?_⟩
            simp only [peekEntry, List.head?_cons, Option.map_some] at hf
            exact Option.some_inj.mp hf
        · exact List.mem_filterMap.mpr ⟨s0, hs0, hf⟩
      have h1 := dropHead_length_le t s
      have h2 := ih hts
      simp only [totalEntries] at h2
      omega

theorem headTerms_cons_subset (s : List (Entry × List Nat)) (ss : Readers) :
    ∀ u ∈ headTerms ss, u ∈ headTerms (s :: ss) := by
  intro u hu
  simp only [headTerms] at hu ⊢
  rcases List.mem_filterMap.mp hu with ⟨s0, hs0, hf⟩
  exact List.mem_filterMap.mpr ⟨s0, List.mem_cons_of_mem s hs0, hf⟩

theorem dfTotal_eq_heads (t : Term) (streams : Readers)
    (hasc : ∀ s ∈ streams, AscStream s)
    (hmin : ∀ u ∈ headTerms streams, t ≤ u) :
    dfTotal t streams =
      (((headEntries streams).filter (fun e => e.term = t)).map Entry.df).sum := by
  induction streams with
  | nil => simp [dfTotal, headEntries]
  | cons s ss ih =>
    have hm := entryTerms_min (s :: ss) s (by simp) t
      (hasc s (by simp)) hmin
    have hfs := stream_filter_at_min s t (hasc s (by simp)) hm
    have hrec := ih (fun x hx => hasc x (List.mem_cons_of_mem s hx))
      (fun u hu => hmin u (headTerms_cons_subset s ss u hu))
    simp only [dfTotal, List.map_cons, List.sum_cons] at hrec ⊢
    rw [hfs]
    cases s with
    | nil =>
      simp only [headEntries, List.filterMap_cons, peekEntry, List.head?_nil,
        Option.map_none]
      simp only [headEntries] at hrec
      simp [hrec]
    | cons q rest =>
      simp only [headEntries, List.filterMap_cons, peekEntry,
        List.head?_cons, Option.map_some]
      simp only [headEntries] at hrec
      by_cases hq : q.1.term = t
      · simp [List.filter_cons, hq, hrec]
      · simp [List.filter_cons, hq, hrec]

theorem nbytesTotal_eq_heads (t : Term) (streams : Readers)
    (hasc : ∀ s ∈ streams, AscStream s)
    (hmin : ∀ u ∈ headTerms streams, t ≤ u) :
    nbytesTotal t streams =
      (((headEntries streams).filter (fun e => e.term = t)).map
        Entry.nbytes).sum := by
  induction streams with
  | nil => simp [nbytesTotal, headEntries]
  | cons s ss ih =>
    have hm := entryTerms_min (s :: ss) s (by simp) t
      (hasc s (by simp)) hmin
    have hfs := stream_filter_at_min s t (hasc s (by simp)) hm
    have hrec := ih (fun x hx => hasc x (List.mem_cons_of_mem s hx))
      (fun u hu => hmin u (headTerms_cons_subset s ss u hu))
    simp only [nbytesTotal, List.map_cons, List.sum_cons] at hrec ⊢
    rw [hfs]
    cases s with
    | nil =>
      simp only [headEntries, List.filterMap_cons, peekEntry, List.head?_nil,
        Option.map_none]
      simp only [headEntries] at hrec
      simp [hrec]
    | cons q rest =>
      simp only [headEntries, List.filterMap_cons, peekEntry,
        List.head?_cons, Option.map_some]
      simp only [headEntries] at hrec
      by_cases hq : q.1.term = t
      · simp [List.filter_cons, hq, hrec]
      · simp [List.filter_cons, hq, hrec]

theorem bytesTotal_eq_takeHead (t : Term) (streams : Readers)
    (hasc : ∀ s ∈ streams, AscStream s)
    (hmin : ∀ u ∈ headTerms streams, t ≤ u) :
    bytesTotal t streams = (streams.map (takeHead t)).flatten := by
  induction streams with
  | nil => simp [bytesTotal]
  | cons s ss ih =>
    have hm := entryTerms_min (s :: ss) s (by simp) t
      (hasc s (by simp)) hmin
    have hfs := stream_filter_at_min s t (hasc s (by simp)) hm
    have hrec := ih (fun x hx => hasc x (List.mem_cons_of_mem s hx))
      (fun u hu => hmin u (headTerms_cons_subset s ss u hu))
    simp only [bytesTotal, List.map_cons, List.flatten_cons] at hrec ⊢
    rw [hfs]
    cases s with
    | nil => simp [takeHead, hrec]
    | cons q rest =>
      by_cases hq : q.1.term = t
      · simp [takeHead, hq, hrec]
      · simp [takeHead, hq, hrec]

theorem dfTotal_dropHead (u t : Term) (hu : u ≠ t) (streams : Readers) :
    dfTotal u (streams.map (dropHead t)) = dfTotal u streams := by
  induction streams with
  | nil => simp [dfTotal]
  | cons s ss ih =>
    simp only [dfTotal, List.map_cons, List.sum_cons] at ih ⊢
    rw [dropHead_filter_ne u t hu s, ih]

theorem nbytesTotal_dropHead (u t : Term) (hu : u ≠ t) (streams : Readers) :
    nbytesTotal u (streams.map (dropHead t)) = nbytesTotal u streams := by
  induction streams with
  | nil => simp [nbytesTotal]
  | cons s ss ih =>
    simp only [nbytesTotal, List.map_cons, List.sum_cons] at ih ⊢
    rw [dropHead_filter_ne u t hu s, ih]

theorem bytesTotal_dropHead (u t : Term) (hu : u ≠ t) (streams : Readers) :
    bytesTotal u (streams.map (dropHead t)) = bytesTotal u streams := by
  induction streams with
  | nil => simp [bytesTotal]
  | cons s ss ih =>
    simp only [bytesTotal, List.map_cons, List.flatten_cons] at ih ⊢
    rw [dropHead_filter_ne u t hu s, ih]

theorem mem_entryTerms_dropHead (u t : Term) (hu : u ≠ t)
    (s : List (Entry × List Nat)) :
    u ∈ entryTerms (dropHead t s) ↔ u ∈ entryTerms s := by
  cases s with
  | nil => simp [dropHead]
  | cons q rest =>
    by_cases hq : q.1.term = t
    · simp only [dropHead, if_pos hq, entryTerms, List.map_cons,
        List.mem_cons]
      constructor
      · exact Or.inr
      · rintro (h | h)
        · exact absurd (h.trans hq) hu
        · exact h
    · simp [dropHead, hq]

theorem mem_allTerms_dropHead (u t : Term) (hu : u ≠ t) (streams : Readers) :
    u ∈ allTerms (streams.map (dropHead t)) ↔ u ∈ allTerms streams := by
  induction streams with
  | nil => simp [allTerms]
  | cons s ss ih =>
    simp only [allTerms, List.map_cons, List.flatten_cons, List.mem_append]
      at ih ⊢
    rw [ih, mem_entryTerms_dropHead u t hu s]

theorem allTerms_dropHead_gt (t : Term) (streams : Readers)
    (hasc : ∀ s ∈ streams, AscStream s)
    (hmin : ∀ u ∈ headTerms streams, t ≤ u) :
    ∀ u ∈ allTerms (streams.map (dropHead t)), t < u := by
  induction streams with
  | nil => simp [allTerms]
  | cons s ss ih =>
    intro u hu
    simp only [allTerms, List.map_cons, List.flatten_cons, List.mem_append]
      at hu
    rcases hu with hu | hu
    · have hm := entryTerms_min (s :: ss) s (by simp) t
        (hasc s (by simp)) hmin
      cases s with
      | nil => simp [dropHead, entryTerms] at hu
      | cons q rest =>
        have hq : t ≤ q.1.term := hm q.1.term (by simp [entryTerms])
        have hpair :=
          (List.pairwise_cons.mp (hasc (q :: rest) (by simp))).1
        by_cases hqt : q.1.term = t
        · simp only [dropHead, if_pos hqt, entryTerms] at hu
          obtain ⟨r, hr, hru⟩ := List.mem_map.mp hu
          have := hpair r hr
          rw [hru] at this
          exact hqt ▸ this
        · simp only [dropHead, if_neg hqt, entryTerms, List.map_cons,
            List.mem_cons] at hu
          have hqlt : t < q.1.term := lt_of_le_of_ne hq (Ne.symm hqt)
          rcases hu with hu | hu
          · exact hu ▸ hqlt
          · obtain ⟨r, hr, hru⟩ := List.mem_map.mp hu
            have := hpair r hr
            rw [hru] at this
            exact lt_trans hqlt this
    · exact ih (fun x hx => hasc x (List.mem_cons_of_mem s hx))
        (fun v hv => hmin v (headTerms_cons_subset s ss v hv)) u hu

theorem headTerms_subset_allTerms (streams : Readers) :
    ∀ u ∈ headTerms streams, u ∈ allTerms streams := by
  induction streams with
  | nil => simp [headTerms, allTerms]
  | cons s ss ih =>
    intro u hu
    simp only [headTerms, List.filterMap_cons] at hu
    simp only [allTerms, List.map_cons, List.flatten_cons, List.mem_append]
    cases s with
    | nil =>
      simp only [peekEntry, List.head?_nil, Option.map_none] at hu
      exact Or.inr (ih u hu)
    | cons q rest =>
      simp only [peekEntry, List.head?_cons, Option.map_some] at hu
      rcases List.mem_cons.mp hu with hu | hu
      · exact Or.inl (by simp [entryTerms, hu])
      · exact Or.inr (ih u hu)

theorem headTerms_eq (streams : Readers) :
    headTerms streams = (headEntries streams).map Entry.term := by
  simp [headTerms, headEntries, List.map_filterMap]

theorem mergeLoop_spec (fuel : Nat) :
    ∀ (streams : Readers) (point : Nat),
      totalEntries streams ≤ fuel →
      (∀ s ∈ streams, AscStream s) →
      ∃ toc main, mergeLoop fuel streams point = some (toc, main) ∧
        List.Pairwise (fun a b : Term => a < b) (tocTerms toc) ∧
        (∀ u, u ∈ tocTerms toc ↔ u ∈ allTerms streams) ∧
        (∀ e ∈ toc, e.df = dfTotal e.term streams ∧
          e.nbytes = nbytesTotal e.term streams) ∧
        main = (toc.map (fun e => bytesTotal e.term streams)).flatten ∧
        contiguousFrom point toc = true := by
  induction fuel with
  | zero =>
    intro streams point hfuel hasc
    have hall : streams.all List.isEmpty = true := by
      rw [List.all_eq_true]
      intro s hs
      have h1 : s.length ≤ totalEntries streams :=
        List.single_le_sum (fun x _ => Nat.zero_le x) _
          (List.mem_map.mpr ⟨s, hs, rfl⟩)
      have h2 : s.length = 0 := by omega
      simpa [List.isEmpty_iff, List.length_eq_zero] using h2
    refine ⟨[], [], by simp [mergeLoop, hall], by simp [tocTerms], ?_,
      by simp, by simp, by simp [contiguousFrom]⟩
    intro u
    rw [allTerms_eq_nil streams hall]
    simp [tocTerms]
  | succ fuel ih =>
    intro streams point hfuel hasc
    by_cases hall : streams.all List.isEmpty = true
    · refine ⟨[], [], by simp [mergeLoop, hall], by simp [tocTerms], ?_,
        by simp, by simp, by simp [contiguousFrom]⟩
      intro u
      rw [allTerms_eq_nil streams hall]
      simp [tocTerms]
    · have hne : headEntries streams ≠ [] :=
        fun h => hall ((all_isEmpty_iff streams).mpr h)
      have hdesc := scanStreams_describes streams
      cases hscan : scanStreams streams with
      | none =>
        rw [hscan] at hdesc
        simp only [AccDescribes] at hdesc
        exact absurd hdesc hne
      | some tnd =>
        obtain ⟨t, nb, df⟩ := tnd
        rw [hscan] at hdesc
        obtain ⟨htmem, htmin, hnb, hdf⟩ := hdesc
        have hmin : ∀ u ∈ headTerms streams, t ≤ u := by
          rw [headTerms_eq]
          exact htmin
        have htmem2 : t ∈ headTerms streams := by
          rw [headTerms_eq]
          exact htmem
        have htot : totalEntries (streams.map (dropHead t))
            < totalEntries streams :=
          totalEntries_dropHead_lt t streams htmem2
        have hasc1 : ∀ s ∈ streams.map (dropHead t), AscStream s := by
          intro s hs
          rcases List.mem_map.mp hs with ⟨s0, hs0, rfl⟩
          exact ascStream_dropHead t s0 (hasc s0 hs0)
        obtain ⟨toc1, main1, hrec, hpair1, hmem1, hsums1, hmain1, hcontig1⟩ :=
          ih (streams.map (dropHead t)) (point + nb) (by omega) hasc1
        have hgt : ∀ u ∈ allTerms (streams.map (dropHead t)), t < u :=
          allTerms_dropHead_gt t streams hasc hmin
        have hgt1 : ∀ u ∈ tocTerms toc1, t < u :=
          fun u hu => hgt u ((hmem1 u).mp hu)
        have hloop : mergeLoop (fuel + 1) streams point =
            some (⟨t, df, point, nb⟩ :: toc1,
              (streams.map (takeHead t)).flatten ++ main1) := by
          rw [show mergeLoop (fuel + 1) streams point =
              (if streams.all List.isEmpty then some ([], [])
               else
                match scanStreams streams with
                | none => none
                | some (t, nbytes, df) =>
                  match moveAll t streams with
                  | (bytes, streams1) =>
                    match mergeLoop fuel streams1 (point + nbytes) with
                    | none => none
                    | some (toc, main) =>
                      some (⟨t, df, point, nbytes⟩ :: toc, bytes ++ main))
            from rfl]
          rw [hscan]
          simp only [hall, Bool.false_eq_true, if_false, moveAll]
          rw [hrec]
        refine ⟨_, _, hloop, ?_, ?_, ?_, ?_, ?_⟩
        · simp only [tocTerms, List.map_cons]
          rw [List.pairwise_cons]
          exact ⟨fun u hu => hgt1 u hu, hpair1⟩
        · intro u
          simp only [tocTerms, List.map_cons, List.mem_cons]
          constructor
          · rintro (hu | hu)
            · exact hu ▸ headTerms_subset_allTerms streams t htmem2
            · have hut : u ≠ t := fun h => absurd (h ▸ hgt1 u hu) (lt_irrefl t)
              exact (mem_allTerms_dropHead u t hut streams).mp
                ((hmem1 u).mp hu)
          · intro hu
            by_cases hut : u = t
            · exact Or.inl hut
            · exact Or.inr ((hmem1 u).mpr
                ((mem_allTerms_dropHead u t hut streams).mpr hu))
        · intro e he
          rcases List.mem_cons.mp he with he | he
          · subst he
            constructor
            · rw [hdf, dfTotal_eq_heads t streams hasc hmin]
            · rw [hnb, nbytesTotal_eq_heads t streams hasc hmin]
          · have hut : e.term ≠ t := by
              intro h
              have := hgt1 e.term (List.mem_map.mpr ⟨e, he, rfl⟩)
              exact absurd (h ▸ this) (lt_irrefl t)
            obtain ⟨h1, h2⟩ := hsums1 e he
            exact ⟨by rw [h1, dfTotal_dropHead e.term t hut],
              by rw [h2, nbytesTotal_dropHead e.term t hut]⟩
        · simp only [List.map_cons, List.flatten_cons]
          congr 1
          · exact (bytesTotal_eq_takeHead t streams hasc hmin).symm
          · rw [hmain1]
            congr 1
            apply List.map_congr_left
            intro e he
            have hut : e.term ≠ t := by
              intro h
              have := hgt1 e.term (List.mem_map.mpr ⟨e, he, rfl⟩)
              exact absurd (h ▸ this) (lt_irrefl t)
            exact bytesTotal_dropHead e.term t hut streams
        · simp only [contiguousFrom, decide_eq_true_eq]
          simp [hcontig1]

theorem mergeStreams_spec (streams : Readers)
    (hasc : ∀ s ∈ streams, AscStream s) :
    ∃ f, mergeStreams streams = some f ∧
      List.Pairwise (fun a b : Term => a < b) (tocTerms f.toc) ∧
      (∀ u, u ∈ tocTerms f.toc ↔ u ∈ allTerms streams) ∧
      (∀ e ∈ f.toc, e.df = dfTotal e.term streams ∧
        e.nbytes = nbytesTotal e.term streams) ∧
      f.main = (f.toc.map (fun e => bytesTotal e.term streams)).flatten ∧
      contiguousFrom 0 f.toc = true := by
  obtain ⟨toc, main, hloop, h1, h2, h3, h4, h5⟩ :=
    mergeLoop_spec (totalEntries streams) streams 0 (le_refl _) hasc
  refine ⟨⟨main, toc⟩, ?_, h1, h2, h3, h4, h5⟩
  rw [mergeStreams, hloop]

theorem bytesTotal_length (t : Term) (streams : Readers)
    (hp : ∀ s ∈ streams, PayloadLengths s) :
    (bytesTotal t streams).length = nbytesTotal t streams := by
  induction streams with
  | nil => simp [bytesTotal, nbytesTotal]
  | cons s ss ih =>
    have hrec := ih (fun x hx => hp x (List.mem_cons_of_mem s hx))
    simp only [bytesTotal, nbytesTotal, List.map_cons, List.flatten_cons,
      List.length_append, List.sum_cons] at hrec ⊢
    rw [hrec]
    congr 1
    rw [List.length_flatten, List.map_map]
    congr 1
    apply List.map_congr_left
    intro q hq
    exact hp s (by simp) q (List.mem_of_mem_filter hq)

theorem mergeStreams_main_length (streams : Readers)
    (hasc : ∀ s ∈ streams, AscStream s)
    (hp : ∀ s ∈ streams, PayloadLengths s)
    (f : IndexFile) (hf : mergeStreams streams = some f) :
    f.main.length = sumNbytes f.toc := by
  obtain ⟨f2, hf2, _, _, h3, h4, _⟩ := mergeStreams_spec streams hasc
  rw [hf] at hf2
  obtain rfl : f = f2 := Option.some_inj.mp hf2
  rw [h4, List.length_flatten, List.map_map, sumNbytes]
  congr 1
  apply List.map_congr_left
  intro e he
  simp only [Function.comp_apply]
  rw [bytesTotal_length e.term streams hp]
  exact ((h3 e he).2).symm

/-- Claim C1, counterexample: a file emitted by `merge_streams` (here,
merging the single file the program writes for document 0 with text
"a") violates the claimed invariant: its first TOC offset is 0, not 8,
and its last `offset + nbytes` is the header value minus 8
(`merge_streams` starts its `point` counter at 0, not at the writer's
initial offset 8). -/
theorem mergeStreams_invariantC_cex :
    (mergeStreams [(writeIndexToTmpFile
        (InMemoryIndex.fromSingleDocument 0 ['a'])).toStream]).map invariantC
      = some false := by
  decide

/-- Claim C1 (amended): files written by `write_index_to_tmp_file`
satisfy Invariant C exactly as claimed — first offset 8, each
`offset + nbytes` equal to the next offset, and `8 + total nbytes`
equal to the u64 stored in the 8-byte header (whose bytes are the
first 8 bytes of the file).  Files emitted by `merge_streams` satisfy
the same chain condition but with the first offset equal to 0, so
their last `offset + nbytes` equals the header value minus 8.  (The
merge hypotheses — strictly ascending terms and `nbytes`-sized
payloads per input reader — hold for every file the program itself
produces.) -/
theorem producedFiles_contiguous :
    (∀ index : InMemoryIndex, invariantC (writeIndexToTmpFile index) = true) ∧
    (∀ f : IndexFile, f.bytes.take 8 = le64 f.header) ∧
    (∀ streams : Readers, (∀ s ∈ streams, AscStream s) →
      (∀ s ∈ streams, PayloadLengths s) →
      ∃ f, mergeStreams streams = some f ∧
        contiguousFrom 0 f.toc = true ∧
        f.header = 8 + sumNbytes f.toc) := by
  refine ⟨?_, ?_, ?_⟩
  · intro index
    obtain ⟨h1, h2⟩ := writeIndex_contig index
    simp [invariantC, h1, h2]
  · intro f
    simp [IndexFile.bytes, le64]
  · intro streams hasc hp
    obtain ⟨f, hf, _, _, _, _, hcontig⟩ := mergeStreams_spec streams hasc
    refine ⟨f, hf, hcontig, ?_⟩
    rw [IndexFile.header, mergeStreams_main_length streams hasc hp f hf]

theorem producedFiles_contiguous_witness :
    invariantC (writeIndexToTmpFile
      (InMemoryIndex.fromSingleDocument 0 ['a'])) = true ∧
    ∃ f, mergeStreams [[(⟨['a'], 1, 8, 8⟩, le32 0 ++ le32 0)]] = some f ∧
      contiguousFrom 0 f.toc = true ∧
      f.header = 8 + sumNbytes f.toc :=
  ⟨producedFiles_contiguous.1 _,
   producedFiles_contiguous.2.2 [[(⟨['a'], 1, 8, 8⟩, le32 0 ++ le32 0)]]
     (by
       intro s hs
       simp only [List.mem_singleton] at hs
       subst hs
       simp [AscStream])
     (by
       intro s hs
       simp only [List.mem_singleton] at hs
       subst hs
       intro q hq
       simp only [List.mem_singleton] at hq
       subst hq
       rfl)⟩

/-- Claim C2: for a k-way merge over readers whose TOC terms are
strictly ascending within each reader (hence appear at most once per
file — the condition every program-produced index file meets), the
output has exactly one TOC entry per distinct input term, whose `df`
and `nbytes` are the sums of the matching input entries' `df` and
`nbytes`, and whose Main region is the reader-index-order
concatenation of the inputs' per-term Main bytes; and every iteration
of the scanning loop selects the lexicographically smallest lookahead
term together with the `nbytes`/`df` sums over the readers currently
at that term. -/
theorem mergeStreams_totals :
    (∀ streams : Readers, (∀ s ∈ streams, AscStream s) →
      ∃ f, mergeStreams streams = some f ∧
        (tocTerms f.toc).Nodup ∧
        (∀ u, u ∈ tocTerms f.toc ↔ u ∈ allTerms streams) ∧
        (∀ e ∈ f.toc, e.df = dfTotal e.term streams ∧
          e.nbytes = nbytesTotal e.term streams) ∧
        f.main = (f.toc.map (fun e => bytesTotal e.term streams)).flatten) ∧
    (∀ ss : Readers, ∀ t nb d, scanStreams ss = some (t, nb, d) →
      t ∈ headTerms ss ∧ (∀ u ∈ headTerms ss, t ≤ u) ∧
      nb = (((headEntries ss).filter
        (fun e => e.term = t)).map Entry.nbytes).sum ∧
      d = (((headEntries ss).filter
        (fun e => e.term = t)).map Entry.df).sum) := by
  constructor
  · intro streams hasc
    obtain ⟨f, hf, h1, h2, h3, h4, _⟩ := mergeStreams_spec streams hasc
    exact ⟨f, hf, h1.imp ne_of_lt, h2, h3, h4⟩
  · intro ss t nb d hscan
    have hdesc := scanStreams_describes ss
    rw [hscan] at hdesc
    obtain ⟨h1, h2, h3, h4⟩ := hdesc
    rw [headTerms_eq]
    exact ⟨h1, h2, h3, h4⟩

theorem mergeStreams_totals_witness :
    ∃ f, mergeStreams
        [(writeIndexToTmpFile
            (InMemoryIndex.fromSingleDocument 0 "alpha beta".data)).toStream,
         (writeIndexToTmpFile
            (InMemoryIndex.fromSingleDocument 1 "beta gamma".data)).toStream]
        = some f ∧
      (tocTerms f.toc).Nodup ∧
      (∀ u, u ∈ tocTerms f.toc ↔ u ∈ allTerms
        [(writeIndexToTmpFile
            (InMemoryIndex.fromSingleDocument 0 "alpha beta".data)).toStream,
         (writeIndexToTmpFile
            (InMemoryIndex.fromSingleDocument 1 "beta gamma".data)).toStream]) ∧
      (∀ e ∈ f.toc, e.df = dfTotal e.term
          [(writeIndexToTmpFile
              (InMemoryIndex.fromSingleDocument 0 "alpha beta".data)).toStream,
           (writeIndexToTmpFile
              (InMemoryIndex.fromSingleDocument 1 "beta gamma".data)).toStream] ∧
        e.nbytes = nbytesTotal e.term
          [(writeIndexToTmpFile
              (InMemoryIndex.fromSingleDocument 0 "alpha beta".data)).toStream,
           (writeIndexToTmpFile
              (InMemoryIndex.fromSingleDocument 1 "beta gamma".data)).toStream]) ∧
      f.main = (f.toc.map (fun e => bytesTotal e.term
          [(writeIndexToTmpFile
              (InMemoryIndex.fromSingleDocument 0 "alpha beta".data)).toStream,
           (writeIndexToTmpFile
              (InMemoryIndex.fromSingleDocument 1 "beta gamma".data)).toStream])).flatten :=
  mergeStreams_totals.1 _ (by decide)

/-- Claim C4: terms in the Contents region are strictly ascending (for
`List Char`, the lexicographic code-point order coincides with UTF-8
byte order): `write_index_to_tmp_file` sorts the (distinct) in-memory
terms before writing, and `merge_streams` emits strictly ascending
terms whenever each of its input readers delivers strictly ascending
terms. -/
theorem producedFiles_sorted :
    (∀ index : InMemoryIndex, (index.map.map Prod.fst).Nodup →
      List.Pairwise (fun a b : Term => a < b)
        (tocTerms (writeIndexToTmpFile index).toc)) ∧
    (∀ streams : Readers, (∀ s ∈ streams, AscStream s) →
      ∃ f, mergeStreams streams = some f ∧
        List.Pairwise (fun a b : Term => a < b) (tocTerms f.toc)) := by
  constructor
  · exact writeIndex_terms_sorted
  · intro streams hasc
    obtain ⟨f, hf, h1, _, _, _, _⟩ := mergeStreams_spec streams hasc
    exact ⟨f, hf, h1⟩

theorem producedFiles_sorted_witness :
    List.Pairwise (fun a b : Term => a < b)
      (tocTerms (writeIndexToTmpFile
        (InMemoryIndex.fromSingleDocument 0 "alpha beta".data)).toc) ∧
    ∃ f, mergeStreams [(writeIndexToTmpFile
        (InMemoryIndex.fromSingleDocument 0 "alpha beta".data)).toStream]
        = some f ∧
      List.Pairwise (fun a b : Term => a < b) (tocTerms f.toc) :=
  ⟨producedFiles_sorted.1 _ (by decide),
   producedFiles_sorted.2 _ (by decide)⟩

theorem addAt_bounded (sts : List (List IndexFile)) (f : IndexFile)
    (h : ∀ s ∈ sts, s.length < NSTREAMS) :
    ∀ s ∈ (addAt sts f).1, s.length < NSTREAMS := by
  induction sts generalizing f with
  | nil =>
    intro s hs
    simp only [addAt, List.mem_singleton] at hs
    subst hs
    simp [NSTREAMS]
  | cons stack rest ih =>
    intro s hs
    by_cases hlen : (stack ++ [f]).length < NSTREAMS
    · simp only [addAt, if_pos hlen] at hs
      rcases List.mem_cons.mp hs with hs | hs
      · exact hs ▸ hlen
      · exact h s (List.mem_cons_of_mem _ hs)
    · simp only [addAt, if_neg hlen] at hs
      rcases List.mem_cons.mp hs with hs | hs
      · subst hs
        simp [NSTREAMS]
      · exact ih (mergeFiles (stack ++ [f]))
          (fun x hx => h x (List.mem_cons_of_mem _ hx)) s hs

/-- Claim C6, counterexample: feeding exactly NSTREAMS = 8 files to a
fresh `FileMerge` unlinks all eight inputs of the triggered merge
(`merge_streams` opens every input with `open_and_delete`), not
seven. -/
theorem addFile_unlinks_cex :
    (addAll files8).2 = 8 ∧ (addAll files8).2 ≠ 7 := by
  decide

/-- Claim C6 (amended): after every `add_file` call every level holds
strictly fewer than NSTREAMS = 8 files; after the 8th level-0 file,
`stacks[0]` is empty and `stacks[1]` holds exactly the one merged
output file — but the triggered merge unlinked eight files (all its
inputs), not seven. -/
theorem addFile_bounded :
    (∀ (sts : List (List IndexFile)) (f : IndexFile),
      (∀ s ∈ sts, s.length < NSTREAMS) →
      ∀ s ∈ addFile sts f, s.length < NSTREAMS) ∧
    (addAll files8).1 = [[], [mergeFiles files8]] ∧
    (addAll files8).2 = 8 := by
  refine ⟨?_, by decide, by decide⟩
  intro sts f h
  exact addAt_bounded sts f h

theorem addFile_bounded_witness :
    ∀ s ∈ addFile [[⟨le32 0 ++ le32 0, [⟨['a'], 1, 8, 8⟩]⟩]]
      ⟨le32 1 ++ le32 0, [⟨['a'], 1, 8, 8⟩]⟩, s.length < NSTREAMS :=
  addFile_bounded.1 _ _ (by decide)

theorem addAt_total_pos (sts : List (List IndexFile)) (f : IndexFile) :
    1 ≤ totalFiles (addAt sts f).1 := by
  induction sts generalizing f with
  | nil => simp [addAt, totalFiles]
  | cons stack rest ih =>
    by_cases hlen : (stack ++ [f]).length < NSTREAMS
    · simp only [addAt, if_pos hlen, totalFiles, List.map_cons,
        List.sum_cons]
      have h1 : (stack ++ [f]).length = stack.length + 1 := by simp
      omega
    · simp only [addAt, if_neg hlen, totalFiles, List.map_cons,
        List.sum_cons, List.length_nil]
      have := ih (mergeFiles (stack ++ [f]))
      simp only [totalFiles] at this
      omega

theorem addAll_total_pos (files : List IndexFile) :
    ∀ (st : List (List IndexFile) × Nat),
      (1 ≤ totalFiles st.1 ∨ files ≠ []) →
      1 ≤ totalFiles (files.foldl
        (fun st f =>
          match addAt st.1 f with
          | (s, u) => (s, st.2 + u)) st).1 := by
  induction files with
  | nil =>
    intro st h
    rcases h with h | h
    · exact h
    · exact absurd rfl h
  | cons f rest ih =>
    intro st _
    rw [List.foldl_cons]
    refine ih _ (Or.inl ?_)
    rcases hat : addAt st.1 f with ⟨s, u⟩
    have := addAt_total_pos st.1 f
    rw [hat] at this
    simpa using this

theorem drainStep_ne_nil (tmp : List IndexFile) (f : IndexFile) :
    drainStep tmp f ≠ [] := by
  by_cases h : (tmp ++ [f]).length = NSTREAMS
  · simp only [drainStep, if_pos h]
    simp
  · simp only [drainStep, if_neg h]
    simp

theorem foldl_drainStep_ne_nil (l : List IndexFile) :
    ∀ tmp : List IndexFile, (tmp ≠ [] ∨ l ≠ []) →
      l.foldl drainStep tmp ≠ [] := by
  induction l with
  | nil =>
    intro tmp h
    rcases h with h | h
    · exact h
    · exact absurd rfl h
  | cons f rest ih =>
    intro tmp _
    rw [List.foldl_cons]
    exact ih (drainStep tmp f) (Or.inl (drainStep_ne_nil tmp f))

theorem finishLoop_ne_nil (sts : List (List IndexFile))
    (h : 1 ≤ totalFiles sts) : finishLoop sts ≠ [] := by
  suffices hgen : ∀ (tmp : List IndexFile),
      (tmp ≠ [] ∨ 1 ≤ totalFiles sts) →
      sts.foldl (fun tmp stack => stack.reverse.foldl drainStep tmp) tmp ≠ []
    from hgen [] (Or.inr h)
  clear h
  induction sts with
  | nil =>
    intro tmp h2
    rcases h2 with h2 | h2
    · exact h2
    · simp [totalFiles] at h2
  | cons stack rest ih =>
    intro tmp h2
    rw [List.foldl_cons]
    by_cases hstack : stack = []
    · subst hstack
      simp only [List.reverse_nil, List.foldl_nil]
      refine ih tmp ?_
      rcases h2 with h2 | h2
      · exact Or.inl h2
      · refine Or.inr ?_
        simp only [totalFiles, List.map_cons, List.sum_cons,
          List.length_nil] at h2 ⊢
        omega
    · have hstep : stack.reverse.foldl drainStep tmp ≠ [] :=
        foldl_drainStep_ne_nil stack.reverse tmp
          (Or.inr (by simpa using hstack))
      exact ih (stack.reverse.foldl drainStep tmp) (Or.inl hstep)

/-- Claim C7: `FileMerge::finish` on a fresh `FileMerge` yields the
empty-corpus error (and no `index.dat`) exactly when no file was ever
added; otherwise exactly one file survives the drain and is returned
(renamed to `index.dat`). -/
theorem finishMerge_empty_iff :
    (∀ files : List IndexFile,
      (finishMerge (addAll files).1 = none ↔ files = [])) ∧
    (∀ files : List IndexFile, files ≠ [] →
      ∃ f, finishMerge (addAll files).1 = some f) := by
  have hsome : ∀ files : List IndexFile, files ≠ [] →
      ∃ f, finishMerge (addAll files).1 = some f := by
    intro files hne
    have htot : 1 ≤ totalFiles (addAll files).1 :=
      addAll_total_pos files ([], 0) (Or.inr hne)
    have hloop : finishLoop (addAll files).1 ≠ [] :=
      finishLoop_ne_nil _ htot
    rw [finishMerge]
    by_cases hlen : (finishLoop (addAll files).1).length > 1
    · simp only [if_pos hlen]
      exact ⟨_, rfl⟩
    · simp only [if_neg hlen]
      rcases h : (finishLoop (addAll files).1).getLast? with _ | f
      · exact absurd (List.getLast?_eq_none_iff.mp h) hloop
      · exact ⟨f, rfl⟩
  refine ⟨?_, hsome⟩
  intro files
  constructor
  · intro hnone
    by_contra hne
    obtain ⟨f, hf⟩ := hsome files hne
    rw [hf] at hnone
    cases hnone
  · intro h
    subst h
    rfl

theorem finishMerge_empty_iff_witness :
    finishMerge (addAll []).1 = none ∧
    ∃ f, finishMerge
      (addAll [⟨le32 0 ++ le32 0, [⟨['a'], 1, 8, 8⟩]⟩]).1 = some f :=
  ⟨(finishMerge_empty_iff.1 []).mpr rfl,
   finishMerge_empty_iff.2 _ (by simp)⟩

theorem mergeStep_fold_sent (il : List InMemoryIndex) :
    ∀ (sent : List InMemoryIndex) (acc : InMemoryIndex),
      il.foldl mergeStep (sent, acc)
        = (sent ++ (il.foldl mergeStep ([], acc)).1,
           (il.foldl mergeStep ([], acc)).2) := by
  induction il with
  | nil =>
    intro sent acc
    simp
  | cons fi il ih =>
    intro sent acc
    rw [List.foldl_cons, List.foldl_cons]
    by_cases hl : (acc.merge fi).isLarge = true
    · rw [show mergeStep (sent, acc) fi
          = (sent ++ [acc.merge fi], InMemoryIndex.new) by
        simp [mergeStep, hl]]
      rw [show mergeStep ([], acc) fi
          = ([acc.merge fi], InMemoryIndex.new) by
        simp [mergeStep, hl]]
      rw [ih (sent ++ [acc.merge fi]) InMemoryIndex.new,
        ih [acc.merge fi] InMemoryIndex.new]
      simp
    · rw [show mergeStep (sent, acc) fi = (sent, acc.merge fi) by
        simp [mergeStep, hl]]
      rw [show mergeStep ([], acc) fi = ([], acc.merge fi) by
        simp [mergeStep, hl]]
      exact ih sent (acc.merge fi)

theorem stStep_fold (l : List (Nat × List Char)) :
    ∀ (acc : InMemoryIndex) (sts : List (List IndexFile)),
      l.foldl stStep (acc, sts)
        = (((l.map (fun p => InMemoryIndex.fromSingleDocument p.1 p.2)).foldl
              mergeStep ([], acc)).2,
           ((((l.map (fun p => InMemoryIndex.fromSingleDocument p.1 p.2)).foldl
              mergeStep ([], acc)).1).map writeIndexToTmpFile).foldl
             addFile sts) := by
  induction l with
  | nil =>
    intro acc sts
    simp
  | cons p l ih =>
    intro acc sts
    rw [List.foldl_cons, List.map_cons, List.foldl_cons]
    by_cases hl :
        (acc.merge (InMemoryIndex.fromSingleDocument p.1 p.2)).isLarge = true
    · rw [show stStep (acc, sts) p
          = (InMemoryIndex.new,
             addFile sts (writeIndexToTmpFile
               (acc.merge (InMemoryIndex.fromSingleDocument p.1 p.2)))) by
        simp [stStep, hl]]
      rw [show mergeStep ([], acc) (InMemoryIndex.fromSingleDocument p.1 p.2)
          = ([acc.merge (InMemoryIndex.fromSingleDocument p.1 p.2)],
             InMemoryIndex.new) by
        simp [mergeStep, hl]]
      rw [ih InMemoryIndex.new _]
      rw [mergeStep_fold_sent
        (l.map (fun p => InMemoryIndex.fromSingleDocument p.1 p.2))
        [acc.merge (InMemoryIndex.fromSingleDocument p.1 p.2)]
        InMemoryIndex.new]
      simp [addFile]
    · rw [show stStep (acc, sts) p
          = (acc.merge (InMemoryIndex.fromSingleDocument p.1 p.2), sts) by
        simp [stStep, hl]]
      rw [show mergeStep ([], acc) (InMemoryIndex.fromSingleDocument p.1 p.2)
          = ([], acc.merge (InMemoryIndex.fromSingleDocument p.1 p.2)) by
        simp [mergeStep, hl]]
      exact ih (acc.merge (InMemoryIndex.fromSingleDocument p.1 p.2)) sts

/-- Claim C5: given the same ordered document texts, the
single-threaded driver and the five-stage pipeline produce the very
same result — the identical final `index.dat` contents (hence
byte-identical files), or the same empty-corpus failure.  Both assign
document ids in input order, accumulate and flush at the same
`is_large` boundaries, write the same temporary files in the same
order, and feed the same cascade. -/
theorem run_modes_equal (texts : List (List Char)) :
    runSingleThreaded texts = runPipeline texts ∧
    (runSingleThreaded texts).map IndexFile.bytes
      = (runPipeline texts).map IndexFile.bytes := by
  have hmain : runSingleThreaded texts = runPipeline texts := by
    rw [runSingleThreaded, runPipeline, mergeIndexFiles, indexerStage,
      mergerStage, writerStage]
    rw [stStep_fold texts.enum InMemoryIndex.new []]
    by_cases he :
        ((texts.enum.map
          (fun p => InMemoryIndex.fromSingleDocument p.1 p.2)).foldl
            mergeStep ([], InMemoryIndex.new)).2.isEmpty = true
    · simp [he]
    · simp only [he, Bool.false_eq_true, if_false]
      rw [List.map_append, List.foldl_append]
      rfl
  exact ⟨hmain, by rw [hmain]⟩

theorem readEntry_eq (bs : List Nat) :
    readEntry bs =
      if bs.length < 8 then .endOfContents
      else if bs.length < 24 then .errShortRead
      else if bs.length < 24 + decodeLE ((bs.drop 20).take 4) then
        .errShortRead
      else
        match utf8Decode
            ((bs.drop 24).take (decodeLE ((bs.drop 20).take 4))) with
        | none => .errUnicode
        | some term =>
          .entry
            ⟨term, decodeLE ((bs.drop 16).take 4), decodeLE (bs.take 8),
             decodeLE ((bs.drop 8).take 8)⟩
            (bs.drop (24 + decodeLE ((bs.drop 20).take 4))) := by
  by_cases h8 : bs.length < 8
  · simp [readEntry, readLE, h8]
  · by_cases h16 : bs.length < 16
    · simp [readEntry, readLE, h8, show bs.length - 8 < 8 by omega,
        show bs.length < 24 by omega]
    · by_cases h20 : bs.length < 20
      · simp [readEntry, readLE, h8, show ¬ bs.length - 8 < 8 by omega,
          show bs.length - 16 < 4 by omega, show bs.length < 24 by omega]
      · by_cases h24 : bs.length < 24
        · simp [readEntry, readLE, h8, show ¬ bs.length - 8 < 8 by omega,
            show ¬ bs.length - 16 < 4 by omega,
            show bs.length - 20 < 4 by omega, h24]
        · by_cases htl : bs.length < 24 + decodeLE ((bs.drop 20).take 4)
          · simp [readEntry, readLE, h8, h24, htl,
              show ¬ bs.length - 8 < 8 by omega,
              show ¬ bs.length - 16 < 4 by omega,
              show ¬ bs.length - 20 < 4 by omega,
              show bs.length - 24 < decodeLE ((bs.drop 20).take 4)
                by omega]
          · simp only [readEntry, readLE, List.length_drop,
              List.drop_drop, if_neg h8, if_neg h24, if_neg htl,
              if_neg (show ¬ bs.length - 8 < 8 by omega),
              if_neg (show ¬ bs.length - 16 < 4 by omega),
              if_neg (show ¬ bs.length - 20 < 4 by omega),
              if_neg (show ¬ bs.length - 24
                < decodeLE ((bs.drop 20).take 4) by omega)]

/-- Claim C8: `read_entry` yields `Ok(None)` exactly when the very
first field (the offset u64) hits end-of-stream (fewer than 8 bytes
remain); a short read on `nbytes`, `df`, `term_len` (fewer than 24
bytes) or on the term bytes (fewer than `24 + term_len`) is the
propagated `UnexpectedEof` hard error, a non-UTF-8 term byte sequence
is the "unicode fail" hard error, and otherwise one entry is parsed —
never `None` once the first field was read. -/
theorem readEntry_spec (bs : List Nat) :
    (readEntry bs = .endOfContents ↔ bs.length < 8) ∧
    (8 ≤ bs.length → bs.length < 24 → readEntry bs = .errShortRead) ∧
    (24 ≤ bs.length → bs.length < 24 + decodeLE ((bs.drop 20).take 4) →
      readEntry bs = .errShortRead) ∧
    (24 + decodeLE ((bs.drop 20).take 4) ≤ bs.length →
      utf8Decode ((bs.drop 24).take (decodeLE ((bs.drop 20).take 4)))
          = none →
      readEntry bs = .errUnicode) ∧
    (∀ term,
      24 + decodeLE ((bs.drop 20).take 4) ≤ bs.length →
      utf8Decode ((bs.drop 24).take (decodeLE ((bs.drop 20).take 4)))
          = some term →
      readEntry bs = .entry
        ⟨term, decodeLE ((bs.drop 16).take 4), decodeLE (bs.take 8),
         decodeLE ((bs.drop 8).take 8)⟩
        (bs.drop (24 + decodeLE ((bs.drop 20).take 4)))) := by
  rw [readEntry_eq]
  refine ⟨?_, ?_, ?_, ?_, ?_⟩
  · by_cases h8 : bs.length < 8
    · simp [h8]
    · simp only [if_neg h8]
      constructor
      · intro h
        exfalso
        by_cases h24 : bs.length < 24
        · rw [if_pos h24] at h
          simp at h
        · rw [if_neg h24] at h
          by_cases htl : bs.length < 24 + decodeLE ((bs.drop 20).take 4)
          · rw [if_pos htl] at h
            simp at h
          · rw [if_neg htl] at h
            cases hdec : utf8Decode
                ((bs.drop 24).take (decodeLE ((bs.drop 20).take 4))) with
            | none =>
              rw [hdec] at h
              simp at h
            | some term =>
              rw [hdec] at h
              simp at h
      · intro h
        exact absurd h h8
  · intro h1 h2
    simp only [if_neg (by omega : ¬ bs.length < 8), if_pos h2]
  · intro h1 h2
    rw [if_neg (by omega : ¬ bs.length < 8)]
    by_cases h24 : bs.length < 24
    · rw [if_pos h24]
    · rw [if_neg h24, if_pos h2]
  · intro h1 h2
    rw [if_neg (by omega : ¬ bs.length < 8),
      if_neg (by omega : ¬ bs.length < 24),
      if_neg (by omega : ¬ bs.length < 24 + decodeLE ((bs.drop 20).take 4)),
      h2]
  · intro term h1 h2
    rw [if_neg (by omega : ¬ bs.length < 8),
      if_neg (by omega : ¬ bs.length < 24),
      if_neg (by omega : ¬ bs.length < 24 + decodeLE ((bs.drop 20).take 4)),
      h2]

theorem readEntry_spec_witness :
    readEntry [] = ReadEntryResult.endOfContents ∧
    readEntry [0, 0, 0, 0, 0, 0, 0, 0] = ReadEntryResult.errShortRead :=
  ⟨(readEntry_spec []).1.mpr (by decide),
   (readEntry_spec [0, 0, 0, 0, 0, 0, 0, 0]).2.1 (by decide) (by decide)⟩

theorem hexDigit_mem (m : Nat) (hm : m < 16) :
    hexDigit m ∈ "0123456789abcdef".data := by
  interval_cases m <;> decide

theorem hex8_mem (n : Nat) : ∀ c ∈ hex8 n, c ∈ "0123456789abcdef".data := by
  intro c hc
  simp only [hex8, List.mem_cons, List.not_mem_nil, or_false] at hc
  rcases hc with h | h | h | h | h | h | h | h <;>
    (subst h; exact hexDigit_mem _ (Nat.mod_lt _ (by decide)))

theorem createAttempts_cons (oracle : Nat → FsOutcome) (n budget : Nat) :
    ∃ tl, createAttempts oracle n budget = n :: tl := by
  cases budget with
  | zero =>
    cases h : oracle n <;> exact ⟨[], by simp [createAttempts, h]⟩
  | succ b =>
    cases h : oracle n with
    | ok => exact ⟨[], by simp [createAttempts, h]⟩
    | alreadyExists =>
      exact ⟨createAttempts oracle (n + 1) b, by simp [createAttempts, h]⟩
    | otherError => exact ⟨[], by simp [createAttempts, h]⟩

theorem createAttempts_chain (oracle : Nat → FsOutcome) :
    ∀ (budget n : Nat),
      List.Chain' (fun a b : Nat => a < b) (createAttempts oracle n budget) ∧
      (createAttempts oracle n budget).length ≤ budget + 1 := by
  intro budget
  induction budget with
  | zero =>
    intro n
    cases h : oracle n <;> simp [createAttempts, h]
  | succ b ih =>
    intro n
    cases h : oracle n with
    | ok => simp [createAttempts, h]
    | alreadyExists =>
      obtain ⟨hchain, hlen⟩ := ih (n + 1)
      obtain ⟨tl, htl⟩ := createAttempts_cons oracle (n + 1) b
      constructor
      · simp only [createAttempts, h]
        rw [htl]
        rw [htl] at hchain
        exact List.Chain'.cons (Nat.lt_succ_self n) hchain
      · simp only [createAttempts, h, List.length_cons]
        omega
    | otherError => simp [createAttempts, h]

theorem createLoop_created (oracle : Nat → FsOutcome) :
    ∀ (budget n : Nat) (fname : List Char) (n1 : Nat),
      createLoop oracle n budget = .created fname n1 →
      ∃ m, n ≤ m ∧ fname = tmpName m ∧ n1 = m + 1 := by
  intro budget
  induction budget with
  | zero =>
    intro n fname n1 hc
    cases h : oracle n with
    | ok =>
      simp only [createLoop, h] at hc
      cases hc
      exact ⟨n, le_refl n, rfl, rfl⟩
    | alreadyExists =>
      simp only [createLoop, h] at hc
      cases hc
    | otherError =>
      simp only [createLoop, h] at hc
      cases hc
  | succ b ih =>
    intro n fname n1 hc
    cases h : oracle n with
    | ok =>
      simp only [createLoop, h] at hc
      cases hc
      exact ⟨n, le_refl n, rfl, rfl⟩
    | alreadyExists =>
      simp only [createLoop, h] at hc
      obtain ⟨m, hm, hf, hn⟩ := ih (n + 1) fname n1 hc
      exact ⟨m, by omega, hf, hn⟩
    | otherError =>
      simp only [createLoop, h] at hc
      cases hc

theorem createLoop_all_collide (oracle : Nat → FsOutcome)
    (hall : ∀ m, oracle m = FsOutcome.alreadyExists) :
    ∀ (budget n : Nat),
      createLoop oracle n budget
          = .failed FsOutcome.alreadyExists (n + budget + 1) ∧
      (createAttempts oracle n budget).length = budget + 1 := by
  intro budget
  induction budget with
  | zero =>
    intro n
    simp [createLoop, createAttempts, hall n]
  | succ b ih =>
    intro n
    obtain ⟨hloop, hlen⟩ := ih (n + 1)
    constructor
    · simp only [createLoop, hall n]
      rw [hloop]
      congr 1
      omega
    · simp only [createAttempts, hall n, List.length_cons]
      omega

/-- Claim C9: `TmpDir::create` builds names `tmp<8 hex digits>.dat`
from the counter, the counter is strictly larger on every attempt, the
loop makes at most 999 attempts — on persistent `AlreadyExists` it
fails after exactly 999 attempts (the first try plus 998 retries,
staying within the claimed bound of 999 retries) — and any error other
than `AlreadyExists` is returned immediately. -/
theorem tmpDir_create_spec :
    (∀ n : Nat, n < 2 ^ 32 →
      tmpName n = "tmp".data ++ hex8 n ++ ".dat".data ∧
      (hex8 n).length = 8 ∧
      ∀ c ∈ hex8 n, c ∈ "0123456789abcdef".data) ∧
    (∀ (oracle : Nat → FsOutcome) (budget n : Nat),
      List.Chain' (fun a b : Nat => a < b)
        (createAttempts oracle n budget) ∧
      (createAttempts oracle n budget).length ≤ budget + 1) ∧
    (∀ (oracle : Nat → FsOutcome) (budget n : Nat) (fname : List Char)
        (n1 : Nat),
      createLoop oracle n budget = .created fname n1 →
      ∃ m, n ≤ m ∧ fname = tmpName m ∧ n1 = m + 1) ∧
    (∀ (oracle : Nat → FsOutcome) (n : Nat),
      (∀ m, oracle m = FsOutcome.alreadyExists) →
      tmpCreate oracle n = .failed FsOutcome.alreadyExists (n + 999) ∧
      (createAttempts oracle n 998).length = 999) ∧
    (∀ (oracle : Nat → FsOutcome) (budget n : Nat),
      oracle n = FsOutcome.otherError →
      createLoop oracle n budget = .failed FsOutcome.otherError (n + 1)) := by
  refine ⟨?_, ?_, ?_, ?_, ?_⟩
  · intro n _
    exact ⟨rfl, rfl, hex8_mem n⟩
  · intro oracle budget n
    exact createAttempts_chain oracle budget n
  · intro oracle budget n fname n1 h
    exact createLoop_created oracle budget n fname n1 h
  · intro oracle n hall
    obtain ⟨h1, h2⟩ := createLoop_all_collide oracle hall 998 n
    exact ⟨h1, h2⟩
  · intro oracle budget n h
    cases budget <;> simp [createLoop, h]

theorem tmpDir_create_spec_witness :
    tmpCreate (fun _ => FsOutcome.alreadyExists) 1
        = .failed FsOutcome.alreadyExists 1000 ∧
    (createAttempts (fun _ => FsOutcome.alreadyExists) 1 998).length
        = 999 :=
  tmpDir_create_spec.2.2.2.1 (fun _ => FsOutcome.alreadyExists) 1
    (fun _ => rfl)

end Fingertips
